import Mathlib

/-!
Verification development for the RAG2WP content-generation pipeline.

The definitions below are shallow embeddings of the Python source under
`src/modules/generation` and `src/modules/utils`.  Pure Python functions
become Lean functions over `String` / `List Char`; Python `dict`/`list`
values parsed from JSON become the inductive type `Json`; fallible code
returns `Option` or `Except`.  Regular-expression operations from the
source are embedded as explicit character scanners implementing the exact
match semantics of the concrete patterns that appear in the code
(leftmost search, greedy / lazy quantifier behaviour is resolved
deterministically for each concrete pattern, as noted at each definition).
-/

namespace RAG2WP

/-- Whitespace characters recognised by Python's `str.strip()` and by the
regex class `\s` for the ASCII range (space, tab, newline, carriage
return, vertical tab, form feed).  The source text never contains
non-ASCII whitespace, and Python's JSON whitespace is the subset
space/tab/newline/carriage-return handled separately below. -/
def isPyWs (c : Char) : Bool :=
  c = ' ' || c = '\t' || c = '\n' || c = '\x0d' || c = '\x0b' || c = '\x0c'

/-- Whitespace accepted between tokens by Python's `json.loads`. -/
def isJsonWs (c : Char) : Bool :=
  c = ' ' || c = '\t' || c = '\n' || c = '\x0d'

/-- Drop leading characters satisfying `p`. -/
def dropWhileL (p : Char → Bool) : List Char → List Char
  | [] => []
  | c :: cs => if p c then dropWhileL p cs else c :: cs

/-- Model of Python `str.strip()` (no arguments): remove leading and
trailing whitespace. -/
def pyStripL (l : List Char) : List Char :=
  dropWhileL isPyWs ((dropWhileL isPyWs l.reverse).reverse)

/-- String wrapper for `pyStripL`. -/
def pyStrip (s : String) : String :=
  String.mk (pyStripL s.data)

/-- Test whether `pre` is a prefix of `l`. -/
def isPrefixL : List Char → List Char → Bool
  | [], _ => true
  | _ :: _, [] => false
  | p :: ps, c :: cs => p = c && isPrefixL ps cs

/-- Drop a known prefix (used after `isPrefixL` succeeded). -/
def dropN (n : Nat) (l : List Char) : List Char := l.drop n

/-- Test whether `sub` occurs as a contiguous substring of `l`
(model of Python's `in` operator on strings). -/
def containsSub (sub : List Char) : List Char → Bool
  | [] => isPrefixL sub []
  | c :: cs => isPrefixL sub (c :: cs) || containsSub sub cs

/-- Count occurrences of a character (model of Python `str.count` for a
single-character argument). -/
def countChar (c : Char) (l : List Char) : Nat :=
  l.count c

/-- ASCII lowering of one character (model of `str.lower()` for the
ASCII range; the keys and keywords it is applied to are ASCII). -/
def pyLowerChar (c : Char) : Char :=
  if 'A' ≤ c ∧ c ≤ 'Z' then Char.ofNat (c.toNat + 32) else c

/-- Model of Python `str.lower()`. -/
def pyLower (s : String) : String :=
  String.mk (s.data.map pyLowerChar)

/-- Join strings with a separator (model of `sep.join(parts)` and
`str.join` generally). -/
def pyJoin (sep : String) (parts : List String) : String :=
  String.mk (List.intercalate sep.data (parts.map String.data))

/-- JSON values as produced by Python's `json.loads`: `none`/booleans,
numbers (kept as their source literal, see `jsonParse`), strings, arrays
and objects (association lists in insertion order, as Python dicts
preserve insertion order). -/
inductive Json where
  | null : Json
  | bool : Bool → Json
  | num : String → Json
  | str : String → Json
  | arr : List Json → Json
  | obj : List (String × Json) → Json
deriving Inhabited

/-- Lookup in a parsed object, i.e. Python `d[k]` / `d.get(k)` on a dict
with unique keys (the parser below keeps the last duplicate, so keys are
unique in parsed objects). -/
def jGet (fields : List (String × Json)) (k : String) : Option Json :=
  match fields with
  | [] => none
  | (k', v) :: rest => if k' = k then some v else jGet rest k

/-- Python `d.get(k, default)`. -/
def jGetD (fields : List (String × Json)) (k : String) (d : Json) : Json :=
  (jGet fields k).getD d

/-- Python dict insertion: replace the value in place if the key exists,
otherwise append (Python dicts keep the original insertion position when
a key is overwritten). -/
def dictInsert (fields : List (String × Json)) (k : String) (v : Json) :
    List (String × Json) :=
  match fields with
  | [] => [(k, v)]
  | (k', v') :: rest =>
    if k' = k then (k, v) :: rest else (k', v') :: dictInsert rest k v

/-- Python truthiness of a JSON-shaped value: `None`, `False`, zero,
empty string, empty list and empty dict are falsy. -/
def jsonTruthy : Json → Bool
  | Json.null => false
  | Json.bool b => b
  | Json.num lit => !(lit.data.all fun c => c = '0' || c = '-' || c = '+' || c = '.')
  | Json.str s => !s.isEmpty
  | Json.arr l => !l.isEmpty
  | Json.obj l => !l.isEmpty

/-- Hexadecimal digit for values below 16. -/
def hexDigit (n : Nat) : Char :=
  if n < 10 then Char.ofNat (48 + n) else Char.ofNat (87 + (n % 16))

/-- Escape one character for a JSON string literal, as `json.dumps` does.
Characters below 0x20 become two-character escapes or `\u00XX`; the model
emits characters at or above 0x20 unescaped (the source calls
`json.dumps` with default `ensure_ascii=True`, which affects only the
textual representation of non-ASCII characters, not the parsed value). -/
def escapeJsonChar (c : Char) : List Char :=
  if c = '"' then ['\\', '"']
  else if c = '\\' then ['\\', '\\']
  else if c = '\n' then ['\\', 'n']
  else if c = '\t' then ['\\', 't']
  else if c = '\x0d' then ['\\', 'r']
  else if c = '\x08' then ['\\', 'b']
  else if c = '\x0c' then ['\\', 'f']
  else if c.toNat < 32 then
    ['\\', 'u', '0', '0', hexDigit (c.toNat / 16), hexDigit (c.toNat % 16)]
  else [c]

/-- Escape a whole string body for a JSON string literal. -/
def escapeJsonStr (l : List Char) : List Char :=
  match l with
  | [] => []
  | c :: cs => escapeJsonChar c ++ escapeJsonStr cs

mutual

/-- Model of Python `json.dumps` with its default separators
`(", ", ": ")`. -/
def jsonDumps : Json → List Char
  | Json.null => "null".data
  | Json.bool true => "true".data
  | Json.bool false => "false".data
  | Json.num lit => lit.data
  | Json.str s => '"' :: (escapeJsonStr s.data ++ ['"'])
  | Json.arr l => '[' :: (jsonDumpsList l ++ [']'])
  | Json.obj l => '\x7b' :: (jsonDumpsFields l ++ ['\x7d'])

/-- Serialise array elements, separated by `", "`. -/
def jsonDumpsList : List Json → List Char
  | [] => []
  | [v] => jsonDumps v
  | v :: rest => jsonDumps v ++ [',', ' '] ++ jsonDumpsList rest

/-- Serialise object fields, separated by `", "` with `": "` after keys. -/
def jsonDumpsFields : List (String × Json) → List Char
  | [] => []
  | [(k, v)] => '"' :: (escapeJsonStr k.data ++ ['"', ':', ' '] ++ jsonDumps v)
  | (k, v) :: rest =>
    '"' :: (escapeJsonStr k.data ++ ['"', ':', ' '] ++ jsonDumps v ++ [',', ' ']
      ++ jsonDumpsFields rest)

end

/-- String-level wrapper for `jsonDumps`. -/
def jsonDumpsStr (v : Json) : String := String.mk (jsonDumps v)

/-- Skip the whitespace accepted by `json.loads` between tokens. -/
def skipJsonWs (l : List Char) : List Char := dropWhileL isJsonWs l

/-- Value of a hexadecimal digit. -/
def parseHex (c : Char) : Option Nat :=
  if '0' ≤ c ∧ c ≤ '9' then some (c.toNat - 48)
  else if 'a' ≤ c ∧ c ≤ 'f' then some (c.toNat - 87)
  else if 'A' ≤ c ∧ c ≤ 'F' then some (c.toNat - 55)
  else none

/-- Parse the body of a JSON string literal after the opening quote,
returning the decoded content and the remainder after the closing quote.
Python's `json.loads` runs in strict mode: an unescaped control
character (code point below 32) inside a string is an error.  Escapes
`\" \\ \/ \b \f \n \r \t \uXXXX` are decoded; a `\uXXXX` escape in the
surrogate range is rejected by the model (Lean characters are Unicode
scalar values; no source input contains surrogate escapes). -/
def parseJsonStrBody : List Char → Option (List Char × List Char)
  | [] => none
  | c :: rest =>
    if c = '"' then some ([], rest)
    else if c = '\\' then
      match rest with
      | [] => none
      | e :: rest' =>
        if e = 'u' then
          match rest' with
          | h1 :: h2 :: h3 :: h4 :: rest'' =>
            match parseHex h1, parseHex h2, parseHex h3, parseHex h4 with
            | some a, some b, some g, some d =>
              let n := ((a * 16 + b) * 16 + g) * 16 + d
              if 0xd800 ≤ n ∧ n ≤ 0xdfff then none
              else
                match parseJsonStrBody rest'' with
                | some (s, r) => some (Char.ofNat n :: s, r)
                | none => none
            | _, _, _, _ => none
          | _ => none
        else
          let dec : Option Char :=
            if e = '"' then some '"'
            else if e = '\\' then some '\\'
            else if e = '/' then some '/'
            else if e = 'b' then some '\x08'
            else if e = 'f' then some '\x0c'
            else if e = 'n' then some '\n'
            else if e = 'r' then some '\x0d'
            else if e = 't' then some '\t'
            else none
          match dec with
          | some d =>
            match parseJsonStrBody rest' with
            | some (s, r) => some (d :: s, r)
            | none => none
          | none => none
    else if c.toNat < 32 then none
    else
      match parseJsonStrBody rest with
      | some (s, r) => some (c :: s, r)
      | none => none

/-- Take a maximal run of decimal digits. -/
def spanDigits : List Char → (List Char × List Char)
  | [] => ([], [])
  | c :: cs =>
    if '0' ≤ c ∧ c ≤ '9' then
      let (d, r) := spanDigits cs
      (c :: d, r)
    else ([], c :: cs)

/-- Parse a JSON number literal (the grammar of Python's `json` module:
optional minus, integer part without leading zeros, optional fraction,
optional exponent), returning the literal characters and the rest.  The
literal is kept verbatim in `Json.num`; Python would convert it to an
`int` or `float`, a normalisation that no claim depends on. -/
def parseJsonNum (l : List Char) : Option (List Char × List Char) :=
  let (sign, l1) :=
    match l with
    | '-' :: rest => (['-'], rest)
    | _ => (([] : List Char), l)
  match l1 with
  | [] => none
  | c :: _ =>
    if ¬('0' ≤ c ∧ c ≤ '9') then none
    else
      let (intPart, l2) :=
        if c = '0' then ([c], l1.drop 1) else spanDigits l1
      if intPart.length > 1 ∧ c = '0' then none
      else
        let (fracPart, l3) :=
          match l2 with
          | '.' :: rest =>
            let (d, r) := spanDigits rest
            if d = [] then (([] : List Char), l2) else ('.' :: d, r)
          | _ => ([], l2)
        if l2 ≠ l3 ∨ fracPart = [] then
          let (expPart, l4) :=
            match l3 with
            | e :: rest =>
              if e = 'e' ∨ e = 'E' then
                match rest with
                | s :: rest' =>
                  if s = '+' ∨ s = '-' then
                    let (d, r) := spanDigits rest'
                    if d = [] then (([] : List Char), l3) else (e :: s :: d, r)
                  else
                    let (d, r) := spanDigits rest
                    if d = [] then (([] : List Char), l3) else (e :: d, r)
                | [] => ([], l3)
              else ([], l3)
            | [] => ([], l3)
          some (sign ++ intPart ++ fracPart ++ expPart, l4)
        else none

mutual

/-- Parse one JSON value (model of Python `json.loads`'s scanner).  The
fuel argument bounds nesting depth; every recursive descent consumes at
least one character, so any fuel above the input length is sufficient. -/
def parseJsonValue : Nat → List Char → Option (Json × List Char)
  | 0, _ => none
  | Nat.succ fuel, l =>
    match skipJsonWs l with
    | [] => none
    | '"' :: rest =>
      match parseJsonStrBody rest with
      | some (s, r) => some (Json.str (String.mk s), r)
      | none => none
    | '\x7b' :: rest => parseJsonMembers fuel (skipJsonWs rest) [] true
    | '[' :: rest => parseJsonElems fuel (skipJsonWs rest) [] true
    | l' =>
      if isPrefixL "true".data l' then some (Json.bool true, l'.drop 4)
      else if isPrefixL "false".data l' then some (Json.bool false, l'.drop 5)
      else if isPrefixL "null".data l' then some (Json.null, l'.drop 4)
      else
        match parseJsonNum l' with
        | some (lit, r) => some (Json.num (String.mk lit), r)
        | none => none

/-- Parse the members of an object after the opening brace (whitespace
already skipped).  `first` is true before the first member, where a
closing brace yields the empty object.  Duplicate keys follow Python:
the later member overwrites the earlier one in place. -/
def parseJsonMembers (fuel : Nat) (l : List Char)
    (acc : List (String × Json)) (first : Bool) : Option (Json × List Char) :=
  match fuel with
  | 0 => none
  | Nat.succ fuel' =>
    match l with
    | '\x7d' :: rest =>
      if first then some (Json.obj acc, rest) else none
    | '"' :: rest =>
      match parseJsonStrBody rest with
      | some (k, r) =>
        match skipJsonWs r with
        | ':' :: r2 =>
          match parseJsonValue fuel' r2 with
          | some (v, r3) =>
            let acc' := dictInsert acc (String.mk k) v
            match skipJsonWs r3 with
            | ',' :: r4 => parseJsonMembers fuel' (skipJsonWs r4) acc' false
            | '\x7d' :: r4 => some (Json.obj acc', r4)
            | _ => none
          | none => none
        | _ => none
      | none => none
    | _ => none

/-- Parse the elements of an array after the opening bracket (whitespace
already skipped). -/
def parseJsonElems (fuel : Nat) (l : List Char)
    (acc : List Json) (first : Bool) : Option (Json × List Char) :=
  match fuel with
  | 0 => none
  | Nat.succ fuel' =>
    match l with
    | ']' :: rest =>
      if first then some (Json.arr acc.reverse, rest) else none
    | _ =>
      match parseJsonValue fuel' l with
      | some (v, r) =>
        match skipJsonWs r with
        | ',' :: r2 => parseJsonElems fuel' (skipJsonWs r2) (v :: acc) false
        | ']' :: r2 => some (Json.arr (v :: acc).reverse, r2)
        | _ => none
      | none => none

end

/-- Model of Python `json.loads`: parse one value, allow surrounding
whitespace, and reject trailing data. -/
def jsonParse (s : String) : Option Json :=
  match parseJsonValue (s.length + 8) s.data with
  | some (v, rest) => if skipJsonWs rest = [] then some v else none
  | none => none

mutual

/-- Model of Python `repr` on values produced by `json.loads` (used by
`str` on containers): dicts and lists print with single-quoted strings,
`None`, `True`, `False`. -/
def pythonRepr : Json → List Char
  | Json.null => "None".data
  | Json.bool true => "True".data
  | Json.bool false => "False".data
  | Json.num lit => lit.data
  | Json.str s => '\'' :: (reprEscape s.data ++ ['\''])
  | Json.arr l => '[' :: (pythonReprList l ++ [']'])
  | Json.obj l => '\x7b' :: (pythonReprFields l ++ ['\x7d'])

/-- Escape a string body for Python `repr` (backslash, quote, newline,
carriage return and tab; other characters are printed as themselves,
an adequate model for the inputs that reach it). -/
def reprEscape : List Char → List Char
  | [] => []
  | c :: cs =>
    (if c = '\\' then ['\\', '\\']
     else if c = '\'' then ['\\', '\'']
     else if c = '\n' then ['\\', 'n']
     else if c = '\x0d' then ['\\', 'r']
     else if c = '\t' then ['\\', 't']
     else [c]) ++ reprEscape cs

/-- Elements of a Python list repr, separated by `", "`. -/
def pythonReprList : List Json → List Char
  | [] => []
  | [v] => pythonRepr v
  | v :: rest => pythonRepr v ++ [',', ' '] ++ pythonReprList rest

/-- Fields of a Python dict repr, separated by `", "` with `": "`. -/
def pythonReprFields : List (String × Json) → List Char
  | [] => []
  | [(k, v)] => pythonRepr (Json.str k) ++ [':', ' '] ++ pythonRepr v
  | (k, v) :: rest =>
    pythonRepr (Json.str k) ++ [':', ' '] ++ pythonRepr v ++ [',', ' ']
      ++ pythonReprFields rest

end

/-- Model of Python `str()` on values produced by `json.loads`: strings
print as themselves, containers as their repr. -/
def pythonStr (v : Json) : String :=
  match v with
  | Json.str s => s
  | v => String.mk (pythonRepr v)

/-- Take a maximal run of characters satisfying `p`, returning the run
and the rest. -/
def spanL (p : Char → Bool) : List Char → (List Char × List Char)
  | [] => ([], [])
  | c :: cs =>
    if p c then
      let (a, b) := spanL p cs
      (c :: a, b)
    else ([], c :: cs)

/-- Skip `\s*` then require a literal, returning the remainder.  All the
literals this is used with start with a non-whitespace character, so the
greedy/backtracking behaviour of `\s*` collapses to skipping the maximal
whitespace run. -/
def skipWsThen (lit : List Char) (l : List Char) : Option (List Char) :=
  let l' := dropWhileL isPyWs l
  if isPrefixL lit l' then some (l'.drop lit.length) else none

/-- All remainders after an occurrence of `lit` in `l` (used to resolve
the `.*lit` regex fragment, where only existence of a decomposition
matters because the surrounding match is used as a boolean). -/
def suffAfterLit (lit : List Char) : List Char → List (List Char)
  | [] => if isPrefixL lit [] then [[]] else []
  | c :: cs =>
    (if isPrefixL lit (c :: cs) then [(c :: cs).drop lit.length] else [])
      ++ suffAfterLit lit cs

/-- Model of `re.search(r'({[\s\S]*?})', text)`: the lazy group matches
from the first opening brace to the first closing brace after it; if no
closing brace follows the first opening brace, no later start position
can succeed either, so the search fails. -/
def braceSpanTake : List Char → Option (List Char)
  | [] => none
  | c :: cs =>
    if c = '\x7d' then some ['\x7d']
    else
      match braceSpanTake cs with
      | some g => some (c :: g)
      | none => none

/-- Find the first opening brace and delegate to `braceSpanTake`. -/
def braceSpan : List Char → Option (List Char)
  | [] => none
  | c :: cs =>
    if c = '\x7b' then
      match braceSpanTake cs with
      | some g => some ('\x7b' :: g)
      | none => none
    else braceSpan cs

/-- Scan for the lazy group body of the fenced-block regex
`` ```(?:json)?\s*({[\s\S]*?})\s*``` ``: after the opening brace, extend
the group to the first closing brace that is followed (after optional
whitespace) by a closing fence. -/
def fenceBodyTake : List Char → Option (List Char)
  | [] => none
  | '\x7d' :: cs =>
    if isPrefixL "```".data (dropWhileL isPyWs cs) then some ['\x7d']
    else
      match fenceBodyTake cs with
      | some g => some ('\x7d' :: g)
      | none => none
  | c :: cs =>
    match fenceBodyTake cs with
    | some g => some (c :: g)
    | none => none

/-- Try the full fenced-block pattern at the current position. -/
def fenceTryAt (l : List Char) : Option (List Char) :=
  if isPrefixL "```".data l then
    let l1 := l.drop 3
    let l2 := if isPrefixL "json".data l1 then l1.drop 4 else l1
    match dropWhileL isPyWs l2 with
    | '\x7b' :: rest =>
      match fenceBodyTake rest with
      | some g => some ('\x7b' :: g)
      | none => none
    | _ => none
  else none

/-- Model of `re.search` for the fenced-block pattern: leftmost position
at which the whole pattern matches, returning the captured group. -/
def fenceSearch : List Char → Option (List Char)
  | [] => none
  | c :: cs =>
    match fenceTryAt (c :: cs) with
    | some g => some g
    | none => fenceSearch cs

/-- Model of `re.sub(r'```(?:json)?\s*|```', '', text)`: the first
alternative subsumes the second (both start with the fence and the rest
is optional), so each occurrence of a fence removes the fence, an
optional `json` tag and the following whitespace run. -/
def stripFenceGo : Nat → List Char → List Char
  | 0, l => l
  | _ + 1, [] => []
  | fuel + 1, c :: cs =>
    if isPrefixL "```".data (c :: cs) then
      let l1 := (c :: cs).drop 3
      let l2 := if isPrefixL "json".data l1 then l1.drop 4 else l1
      stripFenceGo fuel (dropWhileL isPyWs l2)
    else c :: stripFenceGo fuel cs

/-- Fuel wrapper for `stripFenceGo`. -/
def stripFenceMarkers (l : List Char) : List Char :=
  stripFenceGo (l.length + 1) l

/-- Replacement text of the first missing-comma fixup in
`fix_json_structure`.  The source passes the replacement
`'"\1": "\2", "'` as a plain (non-raw) Python string, in which `\1` and
`\2` are the octal escapes for the control characters U+0001 and U+0002,
not group references; the replacement is therefore a constant. -/
def repl56 : List Char := ['"', '\x01', '"', ':', ' ', '"', '\x02', '"', ',', ' ', '"']

/-- Matcher for `"([^"]+)"\s*:\s*"([^"]*)"\s+"` at the current position,
returning the remainder after the match (the trailing quote is part of
the match).  Greedy character classes against a following literal that
the class excludes resolve deterministically. -/
def match56 (l : List Char) : Option (List Char) :=
  match l with
  | '"' :: r1 =>
    let (g1, r2) := spanL (fun c => c ≠ '"') r1
    if g1 = [] then none
    else
      match r2 with
      | '"' :: r3 =>
        match skipWsThen [':'] r3 with
        | some r4 =>
          match dropWhileL isPyWs r4 with
          | '"' :: r5 =>
            let (_, r6) := spanL (fun c => c ≠ '"') r5
            match r6 with
            | '"' :: r7 =>
              let (ws, r8) := spanL isPyWs r7
              if ws = [] then none
              else
                match r8 with
                | '"' :: r9 => some r9
                | _ => none
            | _ => none
          | _ => none
        | none => none
      | _ => none
  | _ => none

/-- Replacement for the second fixup, `'"\1": {\2}, "'`, again a plain
string whose `\1`/`\2` are the control characters U+0001 and U+0002. -/
def repl57 : List Char :=
  ['"', '\x01', '"', ':', ' ', '\x7b', '\x02', '\x7d', ',', ' ', '"']

/-- Matcher for `"([^"]+)"\s*:\s*\{([^{}]*)\}\s+"` at the current
position. -/
def match57 (l : List Char) : Option (List Char) :=
  match l with
  | '"' :: r1 =>
    let (g1, r2) := spanL (fun c => c ≠ '"') r1
    if g1 = [] then none
    else
      match r2 with
      | '"' :: r3 =>
        match skipWsThen [':'] r3 >>= skipWsThen ['\x7b'] with
        | some r5 =>
          let (_, r6) := spanL (fun c => c ≠ '\x7b' ∧ c ≠ '\x7d') r5
          match r6 with
          | '\x7d' :: r7 =>
            let (ws, r8) := spanL isPyWs r7
            if ws = [] then none
            else
              match r8 with
              | '"' :: r9 => some r9
              | _ => none
          | _ => none
        | none => none
      | _ => none
  | _ => none

/-- Matcher for `}\s*\n\s*"`: a closing brace, then a whitespace run
containing at least one newline, then a quote (the split of the run
between the two `\s*` and the `\n` exists exactly when the run contains
a newline). -/
def match60 (l : List Char) : Option (List Char) :=
  match l with
  | '\x7d' :: r =>
    let (ws, r2) := spanL isPyWs r
    if ws.contains '\n' then
      match r2 with
      | '"' :: r3 => some r3
      | _ => none
    else none
  | _ => none

/-- Matcher for `"\s*\n\s*{`. -/
def match61 (l : List Char) : Option (List Char) :=
  match l with
  | '"' :: r =>
    let (ws, r2) := spanL isPyWs r
    if ws.contains '\n' then
      match r2 with
      | '\x7b' :: r3 => some r3
      | _ => none
    else none
  | _ => none

/-- Generic global substitution with a constant replacement: scan left to
right, replacing each non-overlapping match and continuing after it
(model of `re.sub` for the patterns above). -/
def globalSubC (m : List Char → Option (List Char)) (repl : List Char) :
    Nat → List Char → List Char
  | 0, l => l
  | _ + 1, [] => []
  | fuel + 1, c :: cs =>
    match m (c :: cs) with
    | some rest =>
      if rest.length < (c :: cs).length then repl ++ globalSubC m repl fuel rest
      else c :: globalSubC m repl fuel cs
    | none => c :: globalSubC m repl fuel cs

/-- The four missing-comma fixups of `fix_json_structure` (source lines
56–61), in source order. -/
def sub56 (l : List Char) : List Char := globalSubC match56 repl56 (l.length + 1) l

/-- Second fixup. -/
def sub57 (l : List Char) : List Char := globalSubC match57 repl57 (l.length + 1) l

/-- Third fixup. -/
def sub60 (l : List Char) : List Char :=
  globalSubC match60 ['\x7d', ',', ' ', '"'] (l.length + 1) l

/-- Fourth fixup. -/
def sub61 (l : List Char) : List Char :=
  globalSubC match61 ['"', ',', ' ', '\x7b'] (l.length + 1) l

/-- The brace-balance scan of `fix_json_structure` (source lines 63–85):
walk the text tracking string state (a quote toggles it unless the
previous character is a backslash; the quote at index 0 always toggles),
push opening braces outside strings, pop on matching closing braces, and
record the positions of unmatched closing braces.  Returns the marked
positions (ascending) and the number of unclosed opening braces. -/
def balanceGo (prev : Option Char) (inStr : Bool) (stack : Nat) (i : Nat) :
    List Char → List Nat × Nat
  | [] => ([], stack)
  | c :: cs =>
    let toggles := c = '"' && (match prev with | none => true | some p => p ≠ '\\')
    let inStr' := if toggles then !inStr else inStr
    if !inStr' && c = '\x7b' then
      balanceGo (some c) inStr' (stack + 1) (i + 1) cs
    else if !inStr' && c = '\x7d' then
      if stack > 0 then balanceGo (some c) inStr' (stack - 1) (i + 1) cs
      else
        let (ms, st) := balanceGo (some c) inStr' stack (i + 1) cs
        (i :: ms, st)
    else balanceGo (some c) inStr' stack (i + 1) cs

/-- Remove the characters at the given ascending positions (the source
removes them back to front from a copy, which deletes exactly this set
of original positions). -/
def removeMarked (j : Nat) (l : List Char) (marks : List Nat) : List Char :=
  match l, marks with
  | l, [] => l
  | [], _ :: _ => []
  | c :: cs, m :: ms =>
    if j = m then removeMarked (j + 1) cs ms
    else c :: removeMarked (j + 1) cs (m :: ms)

/-- Lines 63–94 of `fix_json_structure`: drop the marked unmatched
closing braces and append one closing brace per unclosed opener. -/
def balanceCore (l : List Char) : List Char :=
  let (marks, stack) := balanceGo none false 0 0 l
  removeMarked 0 l marks ++ List.replicate stack '\x7d'

/-- Lines 96–98: append a closing brace unless the text already ends
with one (`str.endswith` on the empty string is false, so the empty
text also receives a brace). -/
def ensureTrailing (l : List Char) : List Char :=
  if l.getLast? = some '\x7d' then l else l ++ ['\x7d']

/-- Model of the `re.search` over the DOTALL pattern
`\{\s*"title".*"content"\s*:\s*\{\s*"intro"\s*:\s*\{\s*"Part 1"\s*:.*"Part 2"\s*:.*\}\s*$`.
The result is only used as a boolean, so the model decides existence of
a decomposition; the greedy `.*` pieces are resolved by trying every
remainder after an occurrence of the following literal. -/
def introMissingClose (l : List Char) : Bool :=
  l.tails.any fun suf =>
    match suf with
    | '\x7b' :: r =>
      match skipWsThen "\"title\"".data r with
      | some r1 =>
        (suffAfterLit "\"content\"".data r1).any fun r2 =>
          match skipWsThen [':'] r2 >>= skipWsThen ['\x7b'] >>=
              skipWsThen "\"intro\"".data >>= skipWsThen [':'] >>=
              skipWsThen ['\x7b'] >>= skipWsThen "\"Part 1\"".data >>=
              skipWsThen [':'] with
          | some r3 =>
            (suffAfterLit "\"Part 2\"".data r3).any fun r4 =>
              match skipWsThen [':'] r4 with
              | some r5 =>
                (suffAfterLit ['\x7d'] r5).any fun r6 =>
                  dropWhileL isPyWs r6 = []
              | none => false
          | none => false
      | none => false
    | _ => false

/-- Try the capture pattern `key\s*:\s*"([^"]*)"` at the current
position (where `key` includes its quotes), returning the captured
group. -/
def tryKeyStr (key : List Char) (l : List Char) : Option (List Char) :=
  if isPrefixL key l then
    match skipWsThen [':'] (l.drop key.length) with
    | some r =>
      match dropWhileL isPyWs r with
      | '"' :: r2 =>
        let (g, r3) := spanL (fun c => c ≠ '"') r2
        match r3 with
        | '"' :: _ => some g
        | _ => none
      | _ => none
    | none => none
  else none

/-- Leftmost `re.search` for `key\s*:\s*"([^"]*)"`. -/
def keyStrCapture (key : List Char) : List Char → Option (List Char)
  | [] => none
  | c :: cs =>
    match tryKeyStr key (c :: cs) with
    | some g => some g
    | none => keyStrCapture key cs

/-- Try the capture pattern `key\s*:\s*\{([^{}]*)\}` at the current
position. -/
def tryKeyObj (key : List Char) (l : List Char) : Option (List Char) :=
  if isPrefixL key l then
    match skipWsThen [':'] (l.drop key.length) with
    | some r =>
      match dropWhileL isPyWs r with
      | '\x7b' :: r2 =>
        let (g, r3) := spanL (fun c => c ≠ '\x7b' ∧ c ≠ '\x7d') r2
        match r3 with
        | '\x7d' :: _ => some g
        | _ => none
      | _ => none
    | none => none
  else none

/-- Leftmost `re.search` for `key\s*:\s*\{([^{}]*)\}`. -/
def keyObjCapture (key : List Char) : List Char → Option (List Char)
  | [] => none
  | c :: cs =>
    match tryKeyObj key (c :: cs) with
    | some g => some g
    | none => keyObjCapture key cs

/-- Model of `create_safe_json_from_parts` (validation.py, lines
143–172): extract the title (defaulting to "Untitled Article"), extract
the intro object's `Part 1`/`Part 2` fields when present, and serialise
a minimal document `{"title": ..., "content": ...}`. -/
def create_safe_json_from_parts (text : String) : String :=
  let title :=
    match keyStrCapture "\"title\"".data text.data with
    | some t => String.mk t
    | none => "Untitled Article"
  let content : List (String × Json) :=
    match keyObjCapture "\"intro\"".data text.data with
    | some introText =>
      let p1 := keyStrCapture "\"Part 1\"".data introText
      let p2 := keyStrCapture "\"Part 2\"".data introText
      match p1, p2 with
      | none, none => []
      | _, _ =>
        let intro :=
          (match p1 with
           | some s => [("Part 1", Json.str (String.mk s))]
           | none => []) ++
          (match p2 with
           | some s => [("Part 2", Json.str (String.mk s))]
           | none => [])
        [("intro", Json.obj intro)]
    | none => []
  jsonDumpsStr (Json.obj [("title", Json.str title), ("content", Json.obj content)])

/-- Lines 50–61 of `fix_json_structure`: ensure a leading opening brace,
then apply the four missing-comma fixups in order. -/
def fix_pre_stage (text : String) : List Char :=
  let t := if isPrefixL ['\x7b'] text.data then text.data else '\x7b' :: text.data
  sub61 (sub60 (sub57 (sub56 t)))

/-- Lines 63–98 of `fix_json_structure` (the delimiter-balancing stage of
the spec): the brace-balance scan plus the trailing-brace step. -/
def fix_stage2 (l : List Char) : List Char :=
  ensureTrailing (balanceCore l)

/-- Model of `fix_json_structure` (validation.py, lines 35–123).  The
special intro branch returns early only when appending three closing
braces yields parseable JSON.  After the fixups and the balance stage the
text is parsed; on failure the source inspects the parse error position
for nearby Thai characters, but both the Thai branch (line 120) and the
fall-through (line 123) return `create_safe_json_from_parts(fixed_text)`,
so the failure case is that common value. -/
def fix_json_structure (text : String) : String :=
  if introMissingClose text.data ∧
      (jsonParse (text ++ "\x7d\x7d\x7d")).isSome then
    text ++ "\x7d\x7d\x7d"
  else
    let fixedText := String.mk (fix_stage2 (fix_pre_stage text))
    match jsonParse fixedText with
    | some _ => fixedText
    | none => create_safe_json_from_parts fixedText

/-- Model of `clean_gemini_response` (validation.py, lines 14–33): try a
fenced block, then a bare brace span, then strip fence markers; each
path runs `fix_json_structure` on the stripped extract. -/
def clean_gemini_response (text : String) : String :=
  match fenceSearch text.data with
  | some g => fix_json_structure (pyStrip (String.mk g))
  | none =>
    match braceSpan text.data with
    | some g => fix_json_structure (pyStrip (String.mk g))
    | none => fix_json_structure (pyStrip (String.mk (stripFenceMarkers text.data)))

/-- Word characters for the regex `\w` (letters, digits, underscore; the
source only ever matches ASCII ticker symbols with it). -/
def isWordChar (c : Char) : Bool :=
  c.isAlpha || c.isDigit || c = '_'

/-- Model of `re.sub(r'(?<=[^\\])\$(\w+)', r'\\$\1', content)`: a dollar
sign preceded by a non-backslash character (the lookbehind needs a
preceding character, so a leading dollar never matches) and followed by
at least one word character gains a backslash.  The lookbehind inspects
the original text, so the scanner threads the previous original
character. -/
def subDollar1Go (prev : Option Char) : Nat → List Char → List Char
  | 0, l => l
  | _ + 1, [] => []
  | fuel + 1, c :: cs =>
    if c = '$' then
      match prev with
      | some p =>
        if p ≠ '\\' then
          let (w, r) := spanL isWordChar cs
          if w = [] then '$' :: subDollar1Go (some '$') fuel cs
          else '\\' :: '$' :: (w ++ subDollar1Go (some (w.getLastD '$')) fuel r)
        else '$' :: subDollar1Go (some '$') fuel cs
      | none => '$' :: subDollar1Go (some '$') fuel cs
    else c :: subDollar1Go (some c) fuel cs

/-- Fuel wrapper for `subDollar1Go`. -/
def subDollar1 (l : List Char) : List Char := subDollar1Go none (l.length + 1) l

/-- Model of `re.sub(r'\$', r'\\$', content)`: every dollar sign gains a
backslash. -/
def subDollar2 : List Char → List Char
  | [] => []
  | c :: cs =>
    if c = '$' then '\\' :: '$' :: subDollar2 cs
    else c :: subDollar2 cs

/-- Model of `re.sub(r'(?<=[^\\])\\(?![\\"/bfnrt])', r'\\\\', content)`:
a backslash preceded by a non-backslash character and not followed by a
valid JSON escape character is doubled (the negative lookahead succeeds
at the end of the text). -/
def subBackslashGo (prev : Option Char) : List Char → List Char
  | [] => []
  | c :: cs =>
    if c = '\\' then
      let matched :=
        (match prev with | some p => p ≠ '\\' | none => false) &&
        (match cs with
         | [] => true
         | d :: _ => !(d = '\\' || d = '"' || d = '/' || d = 'b' || d = 'f'
             || d = 'n' || d = 'r' || d = 't'))
      (if matched then ['\\', '\\'] else ['\\']) ++ subBackslashGo (some '\\') cs
    else c :: subBackslashGo (some c) cs

/-- The three replacements of `sanitize_json_strings.replace_in_string`,
applied in source order to the content of one string literal. -/
def replace_in_string (content : List Char) : List Char :=
  subBackslashGo none (subDollar2 (subDollar1 content))

/-- Model of `re.sub(r'"([^"]*)"', replace_in_string, json_str)`: pair
quotes left to right; a final unmatched quote (no closing quote after
it) matches nothing, so the remainder is emitted unchanged. -/
def sanitizeStringsGo : Nat → List Char → List Char
  | 0, l => l
  | _ + 1, [] => []
  | fuel + 1, c :: cs =>
    if c = '"' then
      let (g, r) := spanL (fun d => d ≠ '"') cs
      match r with
      | '"' :: r2 => '"' :: (replace_in_string g ++ '"' :: sanitizeStringsGo fuel r2)
      | _ => c :: cs
    else c :: sanitizeStringsGo fuel cs

/-- Matcher for the final fixup of `sanitize_json_strings`,
`("[^"]+"\s*:\s*"[^"]*")\s*("[^"]+"\s*:)` with replacement `\1,\2`:
returns the replacement (the two groups as matched, joined by a comma)
and the remainder after the whole match. -/
def matchCommaFix (l : List Char) : Option (List Char × List Char) :=
  match l with
  | '"' :: r1 =>
    let (g1, r2) := spanL (fun c => c ≠ '"') r1
    if g1 = [] then none
    else
      match r2 with
      | '"' :: r3 =>
        let (ws1, r4) := spanL isPyWs r3
        match r4 with
        | ':' :: r5 =>
          let (ws2, r6) := spanL isPyWs r5
          match r6 with
          | '"' :: r7 =>
            let (g2, r8) := spanL (fun c => c ≠ '"') r7
            match r8 with
            | '"' :: r9 =>
              let (_, r10) := spanL isPyWs r9
              match r10 with
              | '"' :: r11 =>
                let (g3, r12) := spanL (fun c => c ≠ '"') r11
                if g3 = [] then none
                else
                  match r12 with
                  | '"' :: r13 =>
                    let (ws4, r14) := spanL isPyWs r13
                    match r14 with
                    | ':' :: r15 =>
                      let grp1 := '"' :: g1 ++ '"' :: ws1 ++ ':' :: ws2
                        ++ '"' :: g2 ++ ['"']
                      let grp2 := '"' :: g3 ++ '"' :: ws4 ++ [':']
                      some (grp1 ++ ',' :: grp2, r15)
                    | _ => none
                  | _ => none
              | _ => none
            | _ => none
          | _ => none
        | _ => none
      | _ => none
  | _ => none

/-- Generic global substitution where the matcher computes the
replacement from the captured groups. -/
def globalSubF (m : List Char → Option (List Char × List Char)) :
    Nat → List Char → List Char
  | 0, l => l
  | _ + 1, [] => []
  | fuel + 1, c :: cs =>
    match m (c :: cs) with
    | some (repl, rest) =>
      if rest.length < (c :: cs).length then repl ++ globalSubF m fuel rest
      else c :: globalSubF m fuel cs
    | none => c :: globalSubF m fuel cs

/-- Model of `sanitize_json_strings` (validation.py, lines 380–412):
rewrite every string literal with `replace_in_string`, then apply the
missing-comma fixup. -/
def sanitize_json_strings (json_str : String) : String :=
  let s1 := sanitizeStringsGo (json_str.length + 1) json_str.data
  String.mk (globalSubF matchCommaFix (s1.length + 1) s1)

namespace Gemini

/-- Existence test for `re.search(r'"intro"\s*:\s*\{[^{}]*\}', extracted)`
(gemini.py, lines 39 and 51). -/
def introComplete (l : List Char) : Bool :=
  (keyObjCapture "\"intro\"".data l).isSome

/-- Try the end-anchored pattern `("Part 2"\s*:\s*"[^"]*")\s*$` at the
current position, returning the captured group (the trailing whitespace
run is consumed by the match and dropped by the replacement `\1}`). -/
def part2EndTry (l : List Char) : Option (List Char) :=
  if isPrefixL "\"Part 2\"".data l then
    let r := l.drop 8
    let (ws1, r1) := spanL isPyWs r
    match r1 with
    | ':' :: r2 =>
      let (ws2, r3) := spanL isPyWs r2
      match r3 with
      | '"' :: r4 =>
        let (g, r5) := spanL (fun c => c ≠ '"') r4
        match r5 with
        | '"' :: r6 =>
          if r6.all isPyWs then
            some ("\"Part 2\"".data ++ ws1 ++ ':' :: ws2 ++ '"' :: g ++ ['"'])
          else none
        | _ => none
      | _ => none
    | _ => none
  else none

/-- Model of `re.sub(r'("Part 2"\s*:\s*"[^"]*")\s*$', r'\1}', extracted)`. -/
def part2EndSub : List Char → List Char
  | [] => []
  | c :: cs =>
    match part2EndTry (c :: cs) with
    | some g1 => g1 ++ ['\x7d']
    | none => c :: part2EndSub cs

/-- Incomplete-intro check applied to a fence or brace-span extract
(gemini.py, lines 37–42 and 48–53). -/
def extract_fix (extracted : String) : String :=
  if containsSub "intro".data extracted.data
      && containsSub "Part 1".data extracted.data
      && containsSub "Part 2".data extracted.data then
    if !introComplete extracted.data then String.mk (part2EndSub extracted.data)
    else extracted
  else extracted

/-- Existence test for
`re.search(r'"intro"\s*:\s*\{\s*"Part 1"[^{}]*"Part 2"[^{}]*$', text)`
(gemini.py, line 65): after the fixed prefix, the remainder must be
brace-free and contain `"Part 2"` (the trailing `[^{}]*$` always reaches
the end because the class includes newlines). -/
def introMatchEnd (l : List Char) : Bool :=
  l.tails.any fun suf =>
    if isPrefixL "\"intro\"".data suf then
      match skipWsThen [':'] (suf.drop 7) >>= skipWsThen ['\x7b'] >>=
          skipWsThen "\"Part 1\"".data with
      | some r =>
        r.all (fun c => c ≠ '\x7b' && c ≠ '\x7d')
          && containsSub "\"Part 2\"".data r
      | none => false
    else false

/-- Model of `clean_gemini_response` (gemini.py, lines 30–82).  The first
missing-comma fixup on the fallback path (line 62) is the same pattern
and constant control-character replacement as validation.py's line 56. -/
def clean_gemini_response (text : String) : String :=
  match fenceSearch text.data with
  | some g => extract_fix (pyStrip (String.mk g))
  | none =>
    match braceSpan text.data with
    | some g => extract_fix (pyStrip (String.mk g))
    | none =>
      let t1 := (pyStrip (String.mk (stripFenceMarkers text.data))).data
      let t2 := sub56 t1
      let t3 := if introMatchEnd t2 && !(t2.getLast? = some '\x7d') then
        t2 ++ ['\x7d'] else t2
      let t4 := if isPrefixL ['\x7b'] t3 then t3 else '\x7b' :: t3
      let t5 := if t4.getLast? = some '\x7d' then t4 else t4 ++ ['\x7d']
      let openC := countChar '\x7b' t5
      let closeC := countChar '\x7d' t5
      if openC > closeC then
        String.mk (t5 ++ List.replicate (openC - closeC) '\x7d')
      else String.mk t5

/-- Shape test used by the list-normalisation step. -/
def isObjJ : Json → Bool
  | Json.obj _ => true
  | _ => false

/-- The required SEO fields checked by strict validation. -/
def requiredSeo : List String :=
  ["slug", "metaTitle", "metaDescription", "excerpt", "imagePrompt", "altText"]

/-- Model of `validate_article_json` (gemini.py, lines 84–120).  Parse
failures and every `ValueError` raised for a missing field are caught
inside the function, which then returns the empty dict; an
`AttributeError` from calling `.get` on a non-dict `content` or `seo`
value is not caught and escapes (`Except.error`). -/
def validate_article_json (json_str : String) : Except String Json :=
  match jsonParse json_str with
  | none => Except.ok (Json.obj [])
  | some d0 =>
    let data :=
      match d0 with
      | Json.arr items => (items.find? isObjJ).getD (Json.obj [])
      | Json.obj f => Json.obj f
      | _ => Json.obj []
    match data with
    | Json.obj fields =>
      if fields.isEmpty then Except.ok (Json.obj [])
      else if !jsonTruthy (jGetD fields "title" Json.null) then
        Except.ok (Json.obj [])
      else if !jsonTruthy (jGetD fields "content" Json.null) then
        Except.ok (Json.obj [])
      else
        match fields.find? (fun kv => pyLower kv.1 = "seo") with
        | none => Except.ok (Json.obj [])
        | some (_, seoVal) =>
          match jGet fields "content" with
          | some (Json.obj content) =>
            if !jsonTruthy (jGetD content "intro" Json.null) then
              Except.ok (Json.obj [])
            else if !jsonTruthy (jGetD content "sections" Json.null) then
              Except.ok (Json.obj [])
            else if !jsonTruthy (jGetD content "conclusion" Json.null) then
              Except.ok (Json.obj [])
            else
              match seoVal with
              | Json.obj seo =>
                if requiredSeo.all (fun k => jsonTruthy (jGetD seo k Json.null)) then
                  Except.ok (Json.obj fields)
                else Except.ok (Json.obj [])
              | _ => Except.error "AttributeError"
          | _ => Except.error "AttributeError"
    | _ => Except.ok (Json.obj [])

/-- The first line of a text, as `splitlines()[0]`. -/
def firstLine (s : String) : String :=
  String.mk (s.data.takeWhile (fun c => c ≠ '\n' && c ≠ '\x0d'))

/-- Replace spaces by dashes (Python `str.replace(" ", "-")`). -/
def dashSpaces (s : String) : String :=
  String.mk (s.data.map (fun c => if c = ' ' then '-' else c))

/-- The raw-text fallback document of `make_gemini_request` (gemini.py,
lines 148–164), built when the cleaned response does not start with an
opening brace. -/
def fallback_doc (cleaned : String) : Json :=
  let title := if cleaned.isEmpty then "Untitled" else pyStrip (firstLine cleaned)
  Json.obj
    [("title", Json.str title),
     ("content", Json.obj
       [("intro", Json.str cleaned),
        ("sections", Json.arr []),
        ("conclusion", Json.str "")]),
     ("seo", Json.obj
       [("slug", Json.str (dashSpaces (pyLower title))),
        ("metaTitle", Json.str title),
        ("metaDescription", Json.str title),
        ("excerpt", Json.str title),
        ("imagePrompt", Json.str ""),
        ("altText", Json.str "")])]

/-- One loop iteration of `make_gemini_request` (gemini.py, lines
127–176) for a given model response.  `some` means the function returns
or raises in this iteration; `none` means the loop proceeds to the next
attempt (a falsy response falls through silently; a validation
`AttributeError` is caught by the outer handler and retried unless this
is the last attempt). -/
def gemini_attempt (response : Option String) (last : Bool) :
    Option (Except String Json) :=
  match response with
  | some txt =>
    if txt ≠ "" then
      let raw := if introMissingClose txt.data then txt ++ "\x7d\x7d\x7d" else txt
      let cleaned := clean_gemini_response raw
      if !isPrefixL ['\x7b'] (pyStrip cleaned).data then
        some (Except.ok (fallback_doc cleaned))
      else
        match validate_article_json cleaned with
        | Except.ok v => some (Except.ok v)
        | Except.error e => if last then some (Except.error e) else none
    else none
  | none => none

/-- Model of `make_gemini_request` (gemini.py, lines 122–180) over a stub
of the model call: `responses n` is the text returned by the `n`-th call
(`none` for a falsy response).  Returns the result together with the
number of model calls issued; exhausting the three attempts raises the
terminal exception of line 177. -/
def make_gemini_request (responses : Nat → Option String) :
    Except String Json × Nat :=
  match gemini_attempt (responses 0) false with
  | some r => (r, 1)
  | none =>
    match gemini_attempt (responses 1) false with
    | some r => (r, 2)
    | none =>
      match gemini_attempt (responses 2) true with
      | some r => (r, 3)
      | none =>
        (Except.error "Failed to get valid response from Gemini API after all retries", 3)

end Gemini

/-- Matcher for the whitespace-collapsing regex `\s+` (a maximal
whitespace run), used by `clean_source_content`. -/
def matchWsRun (l : List Char) : Option (List Char) :=
  match l with
  | [] => none
  | c :: cs => if isPyWs c then some (dropWhileL isPyWs cs) else none

/-- Model of `clean_source_content` (article.py, lines 8–18): empty
(falsy) input returns the empty string; otherwise collapse whitespace
runs with `re.sub(r'\s+', ' ', content)`, strip, and keep only
characters with code point at least 32 plus newline and tab. -/
def clean_source_content (content : String) : String :=
  if content = "" then ""
  else
    let collapsed := globalSubC matchWsRun [' '] (content.length + 1) content.data
    let stripped := pyStripL collapsed
    String.mk (stripped.filter (fun c => 32 ≤ c.toNat || c = '\n' || c = '\t'))

/-- Modelled from the spec (section 4.1), for comparison with
`clean_source_content`: "Collapses runs of whitespace to single spaces,
strips leading/trailing whitespace. Drops characters with code point
< 32 except newline and tab.  No failure modes; total function over any
string input, including empty."  The collapse is written here by direct
recursion over the characters rather than through the `re.sub` model. -/
def collapseRuns (inRun : Bool) : List Char → List Char
  | [] => []
  | c :: cs =>
    if isPyWs c then
      (if inRun then [] else [' ']) ++ collapseRuns true cs
    else c :: collapseRuns false cs

/-- Spec-side normalizer (see `collapseRuns`). -/
def spec_normalize (s : String) : String :=
  String.mk
    ((pyStripL (collapseRuns false s.data)).filter
      (fun c => 32 ≤ c.toNat || c = '\n' || c = '\t'))

mutual

/-- Structural equality of JSON values, modelling Python `==` on values
produced by `json.loads`.  Numbers compare by literal and objects by
field order; the source only compares strings, missing values and flat
image dicts with this, where the model is exact. -/
def jsonBEq : Json → Json → Bool
  | Json.null, Json.null => true
  | Json.bool a, Json.bool b => a = b
  | Json.num a, Json.num b => a = b
  | Json.str a, Json.str b => a = b
  | Json.arr a, Json.arr b => jsonBEqList a b
  | Json.obj a, Json.obj b => jsonBEqFields a b
  | _, _ => false

/-- Elementwise equality of JSON arrays. -/
def jsonBEqList : List Json → List Json → Bool
  | [], [] => true
  | a :: as', b :: bs' => jsonBEq a b && jsonBEqList as' bs'
  | _, _ => false

/-- Fieldwise equality of JSON objects. -/
def jsonBEqFields : List (String × Json) → List (String × Json) → Bool
  | [], [] => true
  | (k, v) :: as', (k', v') :: bs' => k = k' && jsonBEq v v' && jsonBEqFields as' bs'
  | _, _ => false

end

/-- Equality of two optional values under Python `==` (both `None`
compares equal). -/
def jsonOptBEq : Option Json → Option Json → Bool
  | none, none => true
  | some a, some b => jsonBEq a b
  | _, _ => false

/-- Python `len()` on a JSON-shaped value; `none` models the `TypeError`
raised for values without a length. -/
def pyLen : Json → Option Nat
  | Json.str s => some s.length
  | Json.arr l => some l.length
  | Json.obj f => some f.length
  | _ => none

/-- Python `k in v` for a string key: key lookup on dicts, substring
test on strings, membership on lists; `none` models the `TypeError` on
other values. -/
def pyContainsKey (v : Json) (k : String) : Option Bool :=
  match v with
  | Json.obj f => some (jGet f k).isSome
  | Json.str s => some (containsSub k.data s.data)
  | Json.arr l => some (l.any (fun x => jsonBEq x (Json.str k)))
  | _ => none

/-- The values Python iteration yields for a JSON-shaped value: list
elements, string characters, dict keys; `none` models the `TypeError`
for non-iterables. -/
def pyIterate : Json → Option (List Json)
  | Json.arr l => some l
  | Json.str s => some (s.data.map (fun c => Json.str (String.mk [c])))
  | Json.obj f => some (f.map (fun kv => Json.str kv.1))
  | _ => none

/-- The duplicate test
`any(s.get('heading') == section.get('heading') for s in primary_sections)`
of `combine_articles`: each `s.get` and then `section.get` raises
`AttributeError` on a non-dict (`none`); an empty list is `False`
without evaluating `section.get`. -/
def headingDupGo (sect : Json) : List Json → Option Bool
  | [] => some false
  | s :: rest =>
    match s, sect with
    | Json.obj sf, Json.obj tf =>
      if jsonOptBEq (jGet sf "heading") (jGet tf "heading") then some true
      else headingDupGo sect rest
    | Json.obj _, _ => none
    | _, _ => none

/-- The inner section loop of `combine_articles` (article.py, lines
409–418): `prim = none` models a non-list `primary_sections` value,
which raises as soon as a section actually reaches the loop body. -/
def addFromArticle (toAdd : Int) :
    List Json → Option (List Json) × Nat → Option (Option (List Json) × Nat)
  | [], st => some st
  | sect :: rest, (prim, added) =>
    if (added : Int) ≥ toAdd then some (prim, added)
    else
      match prim with
      | none => none
      | some primList =>
        match headingDupGo sect primList with
        | none => none
        | some true => addFromArticle toAdd rest (some primList, added)
        | some false =>
          addFromArticle toAdd rest (some (primList ++ [sect]), added + 1)

/-- The outer supplementary-article loop of `combine_articles` (article.py,
lines 402–421): skip falsy or non-dict articles and articles without
`content`/`sections`; a non-dict `content` value behaves as Python's
`in`/indexing does. -/
def addSections (toAdd : Int) :
    List Json → Option (List Json) × Nat → Option (Option (List Json) × Nat)
  | [], st => some st
  | article :: rest, st =>
    if (st.2 : Int) ≥ toAdd then some st
    else
      match article with
      | Json.obj af =>
        if !jsonTruthy (Json.obj af) then addSections toAdd rest st
        else
          match jGet af "content" with
          | none => addSections toAdd rest st
          | some (Json.obj cf) =>
            match jGet cf "sections" with
            | none => addSections toAdd rest st
            | some secsVal =>
              match pyIterate secsVal with
              | none => none
              | some secs =>
                match addFromArticle toAdd secs st with
                | none => none
                | some st' => addSections toAdd rest st'
          | some other =>
            match pyContainsKey other "sections" with
            | none => none
            | some true => none
            | some false => addSections toAdd rest st
      | _ => addSections toAdd rest st

/-- The image/embed dedup-append loop of `combine_articles` (article.py,
lines 434–437 and 444–447), keyed by `url`. -/
def dedupAppend (existing : List Json) : List Json → Option (List Json)
  | [] => some existing
  | img :: rest =>
    let dup : Option Bool :=
      match existing with
      | [] => some false
      | _ =>
        let check := fun (i : Json) =>
          match i, img with
          | Json.obj itf, Json.obj imf =>
            some (jsonOptBEq (jGet itf "url") (jGet imf "url"))
          | Json.obj _, _ => (none : Option Bool)
          | _, _ => (none : Option Bool)
        existing.foldl
          (fun acc i =>
            match acc with
            | none => none
            | some true => some true
            | some false => check i)
          (some false)
    match dup with
    | none => none
    | some true => dedupAppend existing rest
    | some false => dedupAppend (existing ++ [img]) rest

/-- Merge one media key (`images` or `twitter_embeds`) from a
supplementary article's media value into the combined media value
(article.py, lines 429–447). -/
def mergeMediaKey (combinedMedia : Json) (articleMedia : Json) (key : String) :
    Option Json :=
  match pyContainsKey articleMedia key with
  | none => none
  | some false => some combinedMedia
  | some true =>
    match articleMedia with
    | Json.obj af =>
      match combinedMedia with
      | Json.obj cmf =>
        let cmf := if (jGet cmf key).isSome then cmf
          else dictInsert cmf key (Json.arr [])
        match jGet cmf key with
        | some (Json.arr existing) =>
          match pyIterate (jGetD af key Json.null) with
          | none => none
          | some items =>
            match dedupAppend existing items with
            | none => none
            | some merged => some (Json.obj (dictInsert cmf key (Json.arr merged)))
        | _ => none
      | _ => none
    | _ => none

/-- The media-merging loop of `combine_articles` (article.py, lines
424–447), over the combined document's fields. -/
def mediaLoop (f : List (String × Json)) : List Json → Option (List (String × Json))
  | [] => some f
  | article :: rest =>
    match pyContainsKey article "media" with
    | none => none
    | some false => mediaLoop f rest
    | some true =>
      match article with
      | Json.obj af =>
        let f := if (jGet f "media").isSome then f
          else dictInsert f "media" (Json.obj [])
        match mergeMediaKey (jGetD f "media" Json.null) (jGetD af "media" Json.null)
            "images" with
        | none => none
        | some cm1 =>
          let f := dictInsert f "media" cm1
          match mergeMediaKey (jGetD f "media" Json.null) (jGetD af "media" Json.null)
              "twitter_embeds" with
          | none => none
          | some cm2 => mediaLoop (dictInsert f "media" cm2) rest
      | _ => none

/-- Model of `combine_articles` (article.py, lines 366–449).  A falsy or
absent primary article and an empty supplementary list are returned
unchanged before the deep copy (`json.loads(json.dumps(...))`) is taken;
all later writes target the copy.  `none` models an uncaught Python
exception on shape-violating inputs. -/
def combine_articles (primary_article : Json) (supplementary_articles : List Json)
    (max_sections : Int) : Option Json :=
  if !jsonTruthy primary_article then some primary_article
  else if supplementary_articles.isEmpty then some primary_article
  else
    let combined := (jsonParse (jsonDumpsStr primary_article)).getD Json.null
    match combined with
    | Json.obj f0 =>
      let f1 := if (jGet f0 "content").isSome then f0
        else dictInsert f0 "content" (Json.obj [])
      match jGet f1 "content" with
      | some (Json.obj cf0) =>
        let cf1 := if (jGet cf0 "sections").isSome then cf0
          else dictInsert cf0 "sections" (Json.arr [])
        let sectionsVal := jGetD cf1 "sections" Json.null
        match pyLen sectionsVal with
        | none => none
        | some current =>
          let toAdd : Int := max_sections - current
          let fc := dictInsert f1 "content" (Json.obj cf1)
          if toAdd ≤ 0 then some (Json.obj fc)
          else
            let prim0 : Option (List Json) :=
              match sectionsVal with
              | Json.arr l => some l
              | _ => none
            match addSections toAdd supplementary_articles (prim0, 0) with
            | none => none
            | some (primFinal, _) =>
              let cf2 :=
                match primFinal with
                | some l => dictInsert cf1 "sections" (Json.arr l)
                | none => cf1
              let fc2 := dictInsert f1 "content" (Json.obj cf2)
              match mediaLoop fc2 supplementary_articles with
              | none => none
              | some fFinal => some (Json.obj fFinal)
      | some _ => none
      | none => none
    | _ => none

/-- The per-section defaulting loop of `generate_article` (article.py,
lines 312–317): every dict section gains `format = 'paragraph'` and
`paragraphs = []` when absent.  Non-dict elements raise unless the
membership tests happen to succeed (substring/membership semantics of
Python `in`); an empty iterable is a no-op. -/
def fixSectionsJ : Json → Option Json
  | Json.arr l =>
    match l.mapM (fun s =>
      match s with
      | Json.obj sf =>
        let sf := if (jGet sf "format").isSome then sf
          else dictInsert sf "format" (Json.str "paragraph")
        let sf := if (jGet sf "paragraphs").isSome then sf
          else dictInsert sf "paragraphs" (Json.arr [])
        some (Json.obj sf)
      | Json.str s =>
        if containsSub "format".data s.data && containsSub "paragraphs".data s.data
        then some (Json.str s) else none
      | _ => none) with
    | some l' => some (Json.arr l')
    | none => none
  | Json.str s => if s.isEmpty then some (Json.str s) else none
  | Json.obj f =>
    if f.isEmpty then some (Json.obj f)
    else if f.all (fun kv => containsSub "format".data kv.1.data
        && containsSub "paragraphs".data kv.1.data) then some (Json.obj f)
    else none
  | _ => none

/-- Model of the response post-processing block of `generate_article`
(article.py, lines 298–333): unwrap a list response, reject non-dicts
with the empty document, then fill `title`, `content`, `sections`,
section `format`/`paragraphs`, a Thai templated `conclusion` mentioning
the primary keyword, and a default `seo` object derived from the
keyword.  `none` models an uncaught Python exception (caught further
out by `generate_article`'s blanket handler). -/
def ensure_article_fields (primary_keyword : String) (content0 : Json) :
    Option Json :=
  let content1 :=
    match content0 with
    | Json.arr items => items.headD (Json.obj [])
    | x => x
  match content1 with
  | Json.obj f0 =>
    let f1 := if (jGet f0 "title").isSome then f0
      else dictInsert f0 "title" (Json.str ("Latest News about " ++ primary_keyword))
    let f2 := if (jGet f1 "content").isSome then f1
      else dictInsert f1 "content" (Json.obj [])
    match jGet f2 "content" with
    | some (Json.obj cf0) =>
      let cf1 := if (jGet cf0 "sections").isSome then cf0
        else dictInsert cf0 "sections" (Json.arr [])
      match fixSectionsJ (jGetD cf1 "sections" Json.null) with
      | none => none
      | some secs =>
        let cf2 := dictInsert cf1 "sections" secs
        let cf3 := if (jGet cf2 "conclusion").isSome then cf2
          else dictInsert cf2 "conclusion"
            (Json.str ("บทความนี้นำเสนอข้อมูลเกี่ยวกับ " ++ primary_keyword
              ++ " ซึ่งเป็นประเด็นสำคัญในตลาดคริปโตที่ควรติดตาม"))
        let f3 := dictInsert f2 "content" (Json.obj cf3)
        let seoField := ((f3.find? (fun kv => pyLower kv.1 = "seo")).map
          (fun kv => kv.1)).getD "seo"
        if (jGet f3 seoField).isSome then some (Json.obj f3)
        else
          match jGetD cf3 "intro" (Json.obj []) with
          | Json.obj iv =>
            let metaDesc := jGetD iv "Part 1"
              (Json.str ("Latest news and updates about " ++ primary_keyword))
            some (Json.obj (dictInsert f3 seoField (Json.obj
              [("slug", Json.str (Gemini.dashSpaces (pyLower primary_keyword))),
               ("metaTitle", Json.str ("Latest Updates on " ++ primary_keyword)),
               ("metaDescription", metaDesc),
               ("excerpt", Json.str ("Stay updated with the latest "
                 ++ primary_keyword ++ " developments")),
               ("imagePrompt", Json.str ("A photorealistic scene showing "
                 ++ primary_keyword ++ " in a professional setting")),
               ("altText", Json.str (primary_keyword
                 ++ " latest updates and developments"))])))
          | _ => none
    | some _ => none
    | none => none
  | _ => some (Json.obj [])

/-- Result record of `parse_article` (text_utils.py): the dict it
returns for WordPress upload.  Fields other than the joined
`main_content` hold whatever JSON value the source assigned. -/
structure ParsedArticle where
  main_title : Json
  main_content : String
  yoast_title : Json
  yoast_metadesc : Json
  seo_slug : Json
  excerpt : Json
  image_prompt : Json
  image_alt : Json

/-- Markdown table row: `'| ' + ' | '.join(cells) + ' |'`. -/
def pipeJoin (cells : List String) : String :=
  "| " ++ pyJoin " | " cells ++ " |"

/-- Render one dict section into content parts (text_utils.py, lines
48–101): heading line, then the body according to `format`, then an
empty part.  Parts that the source appends without `str()` are kept as
raw JSON values. -/
def renderSection (sf : List (String × Json)) : List Json :=
  let headPart := Json.str ("## " ++ pythonStr (jGetD sf "heading" (Json.str "Section Heading")))
  let fmt := jGetD sf "format" (Json.str "paragraph")
  let paras : List Json :=
    match jGetD sf "paragraphs" (Json.arr []) with
    | Json.arr l => l
    | other => [Json.str (pythonStr other)]
  if paras.isEmpty then
    [headPart, Json.str "*Content for this section is being processed.*", Json.str ""]
  else
    let body : List Json :=
      if jsonBEq fmt (Json.str "list") then
        paras.map (fun item => Json.str ("* " ++ pythonStr item))
      else if jsonBEq fmt (Json.str "table") then
        match paras.head? with
        | some (Json.str f) => if isPrefixL ['|'] f.data then paras else []
        | some (Json.arr headerRow) =>
          let headers := headerRow.map (fun h => pythonStr h)
          [Json.str (pipeJoin headers),
           Json.str (pipeJoin (List.replicate headers.length "---"))]
          ++ paras.tail.filterMap (fun row =>
            match row with
            | Json.arr cells => some (Json.str (pipeJoin (cells.map (fun c => pythonStr c))))
            | _ => none)
        | some (Json.obj firstF) =>
          let headers := firstF.map (fun kv => kv.1)
          [Json.str (pipeJoin (headers.map (fun h => pythonStr (Json.str h)))),
           Json.str (pipeJoin (List.replicate headers.length "---"))]
          ++ paras.filterMap (fun row =>
            match row with
            | Json.obj rf => some (Json.str (pipeJoin (headers.map
                (fun h => pythonStr (jGetD rf h (Json.str ""))))))
            | _ => none)
        | _ => []
      else paras.map (fun p => Json.str (pythonStr p))
    [headPart] ++ body ++ [Json.str ""]

/-- Check that every content part is a string and collect them;
`"\n\n".join` raises `TypeError` otherwise. -/
def joinParts : List Json → Option (List String)
  | [] => some []
  | Json.str s :: rest => (joinParts rest).map (fun l => s :: l)
  | _ => none

/-- The affiliate disclosure appended by `parse_article` when requested
(text_utils.py, line 115). -/
def affiliateNote : String :=
  "[su_note note_color=\"#FEFEEE\"] เรามุ่งมั่นในการสร้างความโปร่งใสอย่างเต็มที่กับผู้อ่านของเรา บางเนื้อหาในเว็บไซต์อาจมีลิงก์พันธมิตร ซึ่งเราอาจได้รับค่าคอมมิชชั่นจากความร่วมมือเหล่านี้ [/su_note]"

/-- The SEO-field extraction of `parse_article` (text_utils.py, lines
129–149): sequential assignments inside a blanket `except`, so a
`TypeError` at the `len`/slice of a non-sized `metaDescription` keeps
the later fields at their defaults (empty strings). -/
def seoExtract (fields : List (String × Json)) :
    Json × Json × Json × Json × Json × Json × Json :=
  let mainTitle := jGetD fields "title" (Json.str "Untitled Article")
  let seoData :=
    match jGetD fields "seo" (Json.obj []) with
    | Json.obj s => s
    | _ => []
  let yoastTitle := jGetD seoData "metaTitle" mainTitle
  let metaDesc := jGetD seoData "metaDescription" (Json.str "")
  let step : Option Json :=
    if jsonTruthy metaDesc then
      match pyLen metaDesc with
      | none => none
      | some n =>
        if n > 160 then
          match metaDesc with
          | Json.str s => some (Json.str (String.mk (s.data.take 157) ++ "..."))
          | _ => none
        else some metaDesc
    else some metaDesc
  match step with
  | none =>
    (mainTitle, yoastTitle, Json.str "", Json.str "", Json.str "",
     Json.str "", Json.str "")
  | some md =>
    (mainTitle, yoastTitle, md,
     jGetD seoData "slug" (Json.str ""),
     jGetD seoData "excerpt" (Json.str ""),
     jGetD seoData "imagePrompt" (Json.str ""),
     jGetD seoData "altText" (Json.str ""))

/-- Model of `parse_article` (text_utils.py, lines 6–156) on an
already-parsed article value (for a string argument the source first
applies `json.loads`, i.e. the composition with `jsonParse`).  The
`ValueError`s raised for non-dict input or missing/ill-typed `content`
are not caught by the function's own handler (which only catches
`JSONDecodeError` and `KeyError`) and escape, as does the `TypeError`
from joining non-string parts. -/
def parse_article (article : Json) (add_affiliate_note : Bool) :
    Except String ParsedArticle :=
  match article with
  | Json.obj fields =>
    match jGet fields "content" with
    | none => Except.error "ValueError: Missing required content field"
    | some (Json.obj content) =>
      let introParts : List Json :=
        match jGetD content "intro" (Json.str "") with
        | Json.obj iv =>
          [jGetD iv "Part 1" (Json.str "Introduction Part 1"),
           jGetD iv "Part 2" (Json.str "Introduction Part 2")]
        | other => [Json.str (pythonStr other)]
      let sections : List Json :=
        match jGetD content "sections" (Json.arr []) with
        | Json.arr l => l
        | _ => []
      let sectionParts : List Json :=
        sections.foldr (fun s acc =>
          match s with
          | Json.obj sf => renderSection sf ++ acc
          | _ => acc) []
      let conclusionPart :=
        Json.str (pythonStr (jGetD content "conclusion" (Json.str "Article conclusion.")))
      let parts := introParts ++ sectionParts ++ [conclusionPart]
        ++ (if add_affiliate_note then [Json.str affiliateNote] else [])
      match joinParts parts with
      | none => Except.error "TypeError: sequence item is not a string"
      | some strs =>
        let (mt, yt, md, slug, ex, ip, ia) := seoExtract fields
        Except.ok
          { main_title := mt
            main_content := pyJoin "\n\n" strs
            yoast_title := yt
            yoast_metadesc := md
            seo_slug := slug
            excerpt := ex
            image_prompt := ip
            image_alt := ia }
    | some _ => Except.error "ValueError: Article content must be a dictionary"
  | _ => Except.error "ValueError: Article data must be a dictionary"

/-- Path lookup through nested objects, for stating properties about
specific document fields. -/
def jPath : Json → List String → Option Json
  | v, [] => some v
  | Json.obj f, k :: ks =>
    match jGet f k with
    | some v => jPath v ks
    | none => none
  | _, _ :: _ => none

/-- Count opening and closing braces outside string-literal spans, with
the same string-tracking convention as the balance scan of
`fix_json_structure` (spec section 8, delimiter balance invariant). -/
def countBracesGo (prev : Option Char) (inStr : Bool) (o c : Nat) :
    List Char → Nat × Nat
  | [] => (o, c)
  | ch :: cs =>
    let toggles := ch = '"' && (match prev with | none => true | some p => p ≠ '\\')
    let inStr' := if toggles then !inStr else inStr
    if !inStr' && ch = '\x7b' then countBracesGo (some ch) inStr' (o + 1) c cs
    else if !inStr' && ch = '\x7d' then countBracesGo (some ch) inStr' o (c + 1) cs
    else countBracesGo (some ch) inStr' o c cs

/-- Entry point for `countBracesGo`. -/
def countBracesOutside (l : List Char) : Nat × Nat :=
  countBracesGo none false 0 0 l

/-- Whether two adjacent characters satisfying `p` then `q` occur. -/
def hasAdj (p q : Char → Bool) : List Char → Bool
  | a :: b :: rest => (p a && q b) || hasAdj p q (b :: rest)
  | _ => false

/-- A safe content alphabet for well-formed one-field documents: visible
characters (no whitespace or controls) other than quote, backslash,
dollar and backtick.  Braces are allowed (they may legitimately occur
inside string values). -/
def okChar (c : Char) : Bool :=
  33 ≤ c.toNat && c ≠ '"' && c ≠ '\\' && c ≠ '$' && c ≠ '`'

/-- The safe alphabet without braces (used where a brace would change
the structure of the document, e.g. for keys and for extraction). -/
def okCharNB (c : Char) : Bool :=
  okChar c && c ≠ '\x7b' && c ≠ '\x7d'

/-- A well-formed one-field JSON document `{"k": "v"}`. -/
def mkDoc (k v : String) : String :=
  "\x7b\"" ++ k ++ "\": \"" ++ v ++ "\"\x7d"

/-- The character-list form of `mkDoc`. -/
def mkDocL (k v : List Char) : List Char :=
  '\x7b' :: '"' :: (k ++ '"' :: ':' :: ' ' :: '"' :: (v ++ ['"', '\x7d']))

/-- Safety requirement for the string context of `sanitizeStringsGo`:
the text decomposes into quote-delimited string literals whose contents
contain no quote, dollar or backslash, separated by non-quote
characters. -/
inductive SanSafe : List Char → Prop where
  | nil : SanSafe []
  | cons : ∀ (c : Char) (cs : List Char), c ≠ '"' → SanSafe cs → SanSafe (c :: cs)
  | quoted : ∀ (g r : List Char),
      (∀ c ∈ g, c ≠ '"' ∧ c ≠ '$' ∧ c ≠ '\\') → SanSafe r →
      SanSafe ('"' :: (g ++ '"' :: r))

/-- Fold a list of string-valued fields into a parsed-object
accumulator, the way the object-member parse loop does. -/
def insertAllStr (acc : List (String × Json)) (fs : List (String × String)) :
    List (String × Json) :=
  fs.foldl (fun a p => dictInsert a p.1 (Json.str p.2)) acc

/-- Projection of the `yoast_metadesc` field from a `parse_article`
result, for stating properties of the returned dict. -/
def exceptMetadesc : Except String ParsedArticle → Option Json
  | Except.ok r => some r.yoast_metadesc
  | Except.error _ => none

/-- A well-shaped article with an arbitrary `seo` object, for the
`parse_article` truncation property. -/
def c10art (t i c : String) (sf : List (String × Json)) : Json :=
  Json.obj
    [("title", Json.str t),
     ("content", Json.obj
       [("intro", Json.str i), ("sections", Json.arr []),
        ("conclusion", Json.str c)]),
     ("seo", Json.obj sf)]

set_option maxRecDepth 40000

/-- C2: the raw text a stub model call returns on every attempt — valid
JSON that is missing the mandatory `title` field. -/
def c2stub : String := "\x7b\"content\": \"c\"\x7d"

/-- C7: the end-to-end scenario input of spec section 8 — a fenced block
whose JSON is missing its two closing braces. -/
def c7raw : String :=
  "```json\n\x7b\"title\": \"Bitcoin Rally\", \"content\": \x7b\"intro\": \"Price surged\", \"sections\": [], \"conclusion\": \"Stay tuned\"\n```"

/-- C7: the document the repair engine reconstructs from `c7raw`. -/
def c7doc : Json :=
  Json.obj
    [("title", Json.str "Bitcoin Rally"),
     ("content", Json.obj
       [("intro", Json.str "Price surged"),
        ("sections", Json.arr []),
        ("conclusion", Json.str "Stay tuned")])]

/-- C6: the input document `{title: "X", content: {}}` of the validator
defaulting property. -/
def c6doc : Json := Json.obj [("title", Json.str "X"), ("content", Json.obj [])]

/-- C6: the result of the `generate_article` defaulting block on `c6doc`
for a primary keyword `kw`. -/
def c6result (kw : String) : Json :=
  Json.obj
    [("title", Json.str "X"),
     ("content", Json.obj
       [("sections", Json.arr []),
        ("conclusion", Json.str ("บทความนี้นำเสนอข้อมูลเกี่ยวกับ " ++ kw
          ++ " ซึ่งเป็นประเด็นสำคัญในตลาดคริปโตที่ควรติดตาม"))]),
     ("seo", Json.obj
       [("slug", Json.str (Gemini.dashSpaces (pyLower kw))),
        ("metaTitle", Json.str ("Latest Updates on " ++ kw)),
        ("metaDescription", Json.str ("Latest news and updates about " ++ kw)),
        ("excerpt", Json.str ("Stay updated with the latest " ++ kw ++ " developments")),
        ("imagePrompt", Json.str ("A photorealistic scene showing " ++ kw
          ++ " in a professional setting")),
        ("altText", Json.str (kw ++ " latest updates and developments"))])]

/-- C2: the retry-termination claim against the code.  The stub response
passes the brace check, so `validate_article_json` runs; it catches its
own `ValueError` for the missing `title` internally and returns the
empty dict, which `make_gemini_request` returns after a single model
call — the retry handler for validation failures is unreachable. -/
theorem C2_theorem :
    Gemini.make_gemini_request (fun _ => some c2stub) = (Except.ok (Json.obj []), 1) :=
  rfl

/- Helper lemmas: a `json.dumps` document built from string fields
parses back to itself, so `create_safe_json_from_parts` always yields
parseable JSON and the repair pipeline is total. -/

theorem strMk_data (s : String) : String.mk s.data = s := by
  cases s
  rfl

theorem parseHex_hexDigit (n : Nat) (h : n < 16) : parseHex (hexDigit n) = some n := by
  interval_cases n <;> decide

theorem escape_roundtrip (s : List Char) (rest : List Char) :
    parseJsonStrBody (escapeJsonStr s ++ '"' :: rest) = some (s, rest) := by
  induction s with
  | nil =>
    rw [parseJsonStrBody.eq_def]
    simp [escapeJsonStr]
  | cons c cs ih =>
    show parseJsonStrBody ((escapeJsonChar c ++ escapeJsonStr cs) ++ '"' :: rest) = _
    rw [List.append_assoc]
    by_cases h1 : c = '"'
    · subst h1
      show parseJsonStrBody (['\\', '"'] ++ (escapeJsonStr cs ++ '"' :: rest)) = _
      rw [List.cons_append, List.cons_append, List.nil_append, parseJsonStrBody.eq_def]
      simp [ih]
    · by_cases h2 : c = '\\'
      · subst h2
        show parseJsonStrBody (['\\', '\\'] ++ (escapeJsonStr cs ++ '"' :: rest)) = _
        rw [List.cons_append, List.cons_append, List.nil_append, parseJsonStrBody.eq_def]
        simp [ih]
      · by_cases h3 : c = '\n'
        · subst h3
          show parseJsonStrBody (['\\', 'n'] ++ (escapeJsonStr cs ++ '"' :: rest)) = _
          rw [List.cons_append, List.cons_append, List.nil_append, parseJsonStrBody.eq_def]
          simp [ih]
        · by_cases h4 : c = '\t'
          · subst h4
            show parseJsonStrBody (['\\', 't'] ++ (escapeJsonStr cs ++ '"' :: rest)) = _
            rw [List.cons_append, List.cons_append, List.nil_append, parseJsonStrBody.eq_def]
            simp [ih]
          · by_cases h5 : c = '\x0d'
            · subst h5
              show parseJsonStrBody (['\\', 'r'] ++ (escapeJsonStr cs ++ '"' :: rest)) = _
              rw [List.cons_append, List.cons_append, List.nil_append, parseJsonStrBody.eq_def]
              simp [ih]
            · by_cases h6 : c = '\x08'
              · subst h6
                show parseJsonStrBody (['\\', 'b'] ++ (escapeJsonStr cs ++ '"' :: rest)) = _
                rw [List.cons_append, List.cons_append, List.nil_append, parseJsonStrBody.eq_def]
                simp [ih]
              · by_cases h7 : c = '\x0c'
                · subst h7
                  show parseJsonStrBody (['\\', 'f'] ++ (escapeJsonStr cs ++ '"' :: rest)) = _
                  rw [List.cons_append, List.cons_append, List.nil_append, parseJsonStrBody.eq_def]
                  simp [ih]
                · by_cases h8 : c.toNat < 32
                  · have hesc : escapeJsonChar c
                        = ['\\', 'u', '0', '0', hexDigit (c.toNat / 16),
                           hexDigit (c.toNat % 16)] := by
                      simp [escapeJsonChar, h1, h2, h3, h4, h5, h6, h7, h8]
                    rw [hesc]
                    have hdiv : c.toNat / 16 < 16 := by omega
                    have hmod : c.toNat % 16 < 16 := Nat.mod_lt _ (by omega)
                    rw [List.cons_append, List.cons_append, List.cons_append,
                      List.cons_append, List.cons_append, List.cons_append,
                      List.nil_append, parseJsonStrBody.eq_def]
                    simp [show parseHex '0' = some 0 from by decide,
                      parseHex_hexDigit _ hdiv, parseHex_hexDigit _ hmod, ih]
                    have hdm := Nat.div_add_mod c.toNat 16
                    constructor
                    · intro hge
                      omega
                    · rw [show c.toNat / 16 * 16 + c.toNat % 16 = c.toNat from by omega]
                      exact Char.ofNat_toNat c
                  · have hesc : escapeJsonChar c = [c] := by
                      simp [escapeJsonChar, h1, h2, h3, h4, h5, h6, h7, h8]
                    rw [hesc, List.cons_append, List.nil_append, parseJsonStrBody.eq_def]
                    simp [h1, h2, h8, ih]

theorem skipJsonWs_space (l : List Char) : skipJsonWs (' ' :: l) = skipJsonWs l := by
  simp [skipJsonWs, dropWhileL, isJsonWs]

theorem skipJsonWs_quote (l : List Char) : skipJsonWs ('"' :: l) = '"' :: l := by
  simp [skipJsonWs, dropWhileL, isJsonWs]

theorem parseValue_str (f : Nat) (v : String) (r : List Char) :
    parseJsonValue (f + 1) ('"' :: (escapeJsonStr v.data ++ '"' :: r))
      = some (Json.str v, r) := by
  rw [parseJsonValue.eq_def]
  simp [skipJsonWs_quote, escape_roundtrip, strMk_data]

theorem parseValue_ws (f : Nat) (l : List Char) :
    parseJsonValue (f + 1) (' ' :: l) = parseJsonValue (f + 1) l := by
  rw [parseJsonValue.eq_def, parseJsonValue.eq_def]
  simp only [skipJsonWs_space]

theorem parseValue_str_sp (f : Nat) (v : String) (r : List Char) :
    parseJsonValue (f + 1) (' ' :: '"' :: (escapeJsonStr v.data ++ '"' :: r))
      = some (Json.str v, r) := by
  rw [parseValue_ws, parseValue_str]

theorem members_strs (fs : List (String × String)) :
    ∀ (f : Nat) (k v : String) (acc : List (String × Json)) (first : Bool)
      (rest : List Char),
    parseJsonMembers (f + 2 * fs.length + 3)
      (jsonDumpsFields (((k, v) :: fs).map fun p => (p.1, Json.str p.2))
        ++ '\x7d' :: rest) acc first
      = some (Json.obj (insertAllStr acc ((k, v) :: fs)), rest) := by
  induction fs with
  | nil =>
    intro f k v acc first rest
    rw [parseJsonMembers.eq_def]
    simp only [List.map_cons, List.map_nil, jsonDumpsFields, jsonDumps,
      List.cons_append, List.append_assoc, List.nil_append]
    simp [escape_roundtrip, strMk_data, skipJsonWs, dropWhileL, isJsonWs,
      parseValue_str_sp, insertAllStr]
  | cons p fs2 ih =>
    intro f k v acc first rest
    obtain ⟨k2, v2⟩ := p
    rw [parseJsonMembers.eq_def]
    simp only [List.map_cons, jsonDumpsFields, jsonDumps, List.cons_append,
      List.append_assoc, List.nil_append]
    simp only [escape_roundtrip, strMk_data]
    simp only [show ∀ X : List Char, skipJsonWs (':' :: ' ' :: X) = ':' :: ' ' :: X
      from by intro X; simp [skipJsonWs, dropWhileL, isJsonWs]]
    simp only [List.length_cons]
    rw [show f + 2 * (fs2.length + 1) + 2 = (f + 2 * fs2.length + 3) + 1 from by ring]
    simp only [parseValue_str_sp]
    simp only [show ∀ X : List Char, skipJsonWs (',' :: ' ' :: X) = ',' :: ' ' :: X
      from by intro X; simp [skipJsonWs, dropWhileL, isJsonWs]]
    rw [show (f + 2 * fs2.length + 3) + 1 = (f + 1) + 2 * fs2.length + 3 from by ring]
    simp only [skipJsonWs_space]
    obtain ⟨Y, hY⟩ : ∃ Y : List Char,
        jsonDumpsFields ((k2, Json.str v2) :: List.map (fun p => (p.1, Json.str p.2)) fs2)
          = '"' :: Y := by
      cases fs2 with
      | nil =>
        exact ⟨escapeJsonStr k2.data ++ '"' :: ':' :: ' ' :: jsonDumps (Json.str v2),
          by simp [jsonDumpsFields]⟩
      | cons q fs3 =>
        exact ⟨escapeJsonStr k2.data ++ '"' :: ':' :: ' '
            :: (jsonDumps (Json.str v2) ++ ',' :: ' '
              :: jsonDumpsFields ((q.1, Json.str q.2)
                :: List.map (fun p => (p.1, Json.str p.2)) fs3)),
          by simp [jsonDumpsFields]⟩
    rw [hY]
    simp only [List.cons_append, skipJsonWs_quote]
    rw [← List.cons_append, ← hY]
    have := ih (f + 1) k2 v2 (dictInsert acc k (Json.str v)) false rest
    simp only [List.map_cons] at this
    rw [this]
    simp [insertAllStr]

theorem parseValue_objEmpty (f : Nat) (r : List Char) :
    parseJsonValue (f + 2) (jsonDumps (Json.obj []) ++ r)
      = some (Json.obj [], r) := by
  rw [parseJsonValue.eq_def]
  simp [jsonDumps, jsonDumpsFields, skipJsonWs, dropWhileL, isJsonWs]
  rw [parseJsonMembers.eq_def]
  simp

theorem parseValue_objStrs (fs : List (String × String)) (f : Nat) (k v : String)
    (r : List Char) :
    parseJsonValue (f + 2 * fs.length + 6)
      (jsonDumps (Json.obj (((k, v) :: fs).map fun p => (p.1, Json.str p.2))) ++ r)
      = some (Json.obj (insertAllStr [] ((k, v) :: fs)), r) := by
  rw [show f + 2 * fs.length + 6 = (f + 2 * fs.length + 5) + 1 from by ring,
    parseJsonValue.eq_def]
  simp only [jsonDumps, List.cons_append, List.append_assoc]
  obtain ⟨Y, hY⟩ : ∃ Y : List Char,
      jsonDumpsFields (((k, v) :: fs).map fun p => (p.1, Json.str p.2))
        = '"' :: Y := by
    cases fs with
    | nil =>
      exact ⟨escapeJsonStr k.data ++ '"' :: ':' :: ' ' :: jsonDumps (Json.str v),
        by simp [jsonDumpsFields]⟩
    | cons q fs3 =>
      exact ⟨escapeJsonStr k.data ++ '"' :: ':' :: ' '
          :: (jsonDumps (Json.str v) ++ ',' :: ' '
            :: jsonDumpsFields ((q.1, Json.str q.2)
              :: List.map (fun p => (p.1, Json.str p.2)) fs3)),
        by simp [jsonDumpsFields]⟩
  simp only [skipJsonWs, dropWhileL, isJsonWs]
  simp only [show (decide ('\x7b' = ' ') || decide ('\x7b' = '\t')
      || decide ('\x7b' = '\n') || decide ('\x7b' = '\x0d')) = false from by decide]
  simp only [Bool.false_eq_true, if_false]
  rw [hY, List.cons_append]
  simp only [show ∀ X : List Char, dropWhileL isJsonWs ('"' :: X) = '"' :: X
    from by intro X; simp [dropWhileL, isJsonWs]]
  rw [← List.cons_append, ← hY,
    show f + 2 * fs.length + 5 = (f + 2) + 2 * fs.length + 3 from by ring]
  exact members_strs fs (f + 2) k v [] true r

theorem parseValue_objWith (key : String) (C D : List (String × Json)) (NC : Nat)
    (hC : ∀ (f : Nat) (r : List Char),
      parseJsonValue (f + NC) (jsonDumps (Json.obj C) ++ r) = some (Json.obj D, r))
    (f : Nat) (r : List Char) :
    parseJsonValue (f + NC + 3) (jsonDumps (Json.obj [(key, Json.obj C)]) ++ r)
      = some (Json.obj [(key, Json.obj D)], r) := by
  rw [show f + NC + 3 = (f + NC + 2) + 1 from by ring, parseJsonValue.eq_def]
  simp only [jsonDumps, jsonDumpsFields, List.cons_append, List.append_assoc,
    List.nil_append]
  simp only [show ∀ X : List Char, skipJsonWs ('\x7b' :: X) = '\x7b' :: X
    from by intro X; simp [skipJsonWs, dropWhileL, isJsonWs]]
  simp only [skipJsonWs_quote]
  rw [show f + NC + 2 = (f + NC + 1) + 1 from by ring, parseJsonMembers.eq_def]
  simp only [escape_roundtrip, strMk_data]
  simp only [show ∀ X : List Char, skipJsonWs (':' :: ' ' :: X) = ':' :: ' ' :: X
    from by intro X; simp [skipJsonWs, dropWhileL, isJsonWs]]
  rw [parseValue_ws (f + NC)]
  rw [show f + NC + 1 = (f + 1) + NC from by ring]
  rw [show ('\x7b' :: (jsonDumpsFields C ++ '\x7d' :: '\x7d' :: r) : List Char)
    = jsonDumps (Json.obj C) ++ '\x7d' :: r from by simp [jsonDumps]]
  simp only [hC]
  simp only [show ∀ X : List Char, skipJsonWs ('\x7d' :: X) = '\x7d' :: X
    from by intro X; simp [skipJsonWs, dropWhileL, isJsonWs]]
  simp [dictInsert]

theorem parseValue_doc (T : String) (C D : List (String × Json)) (NC : Nat)
    (hC : ∀ (f : Nat) (r : List Char),
      parseJsonValue (f + NC) (jsonDumps (Json.obj C) ++ r) = some (Json.obj D, r))
    (f : Nat) (r : List Char) :
    parseJsonValue (f + NC + 5)
      (jsonDumps (Json.obj [("title", Json.str T), ("content", Json.obj C)]) ++ r)
      = some (Json.obj [("title", Json.str T), ("content", Json.obj D)], r) := by
  rw [show f + NC + 5 = (f + NC + 4) + 1 from by ring, parseJsonValue.eq_def]
  simp only [jsonDumps, jsonDumpsFields, List.cons_append, List.append_assoc,
    List.nil_append]
  simp only [show ∀ X : List Char, skipJsonWs ('\x7b' :: X) = '\x7b' :: X
    from by intro X; simp [skipJsonWs, dropWhileL, isJsonWs]]
  simp only [skipJsonWs_quote]
  rw [show f + NC + 4 = (f + NC + 3) + 1 from by ring, parseJsonMembers.eq_def]
  simp only [escape_roundtrip, strMk_data]
  simp only [show ∀ X : List Char, skipJsonWs (':' :: ' ' :: X) = ':' :: ' ' :: X
    from by intro X; simp [skipJsonWs, dropWhileL, isJsonWs]]
  rw [show f + NC + 3 = (f + NC + 2) + 1 from by ring]
  simp only [parseValue_str_sp]
  simp only [show ∀ X : List Char, skipJsonWs (',' :: ' ' :: X) = ',' :: ' ' :: X
    from by intro X; simp [skipJsonWs, dropWhileL, isJsonWs]]
  simp only [skipJsonWs_space, skipJsonWs_quote]
  rw [parseJsonMembers.eq_def]
  simp only [escape_roundtrip, strMk_data]
  simp only [show ∀ X : List Char, skipJsonWs (':' :: ' ' :: X) = ':' :: ' ' :: X
    from by intro X; simp [skipJsonWs, dropWhileL, isJsonWs]]
  rw [show f + NC + 2 = (f + NC + 1) + 1 from by ring]
  rw [parseValue_ws (f + NC + 1)]
  rw [show f + NC + 1 + 1 = (f + 2) + NC from by ring]
  rw [show ('\x7b' :: (jsonDumpsFields C ++ '\x7d' :: '\x7d' :: r) : List Char)
    = jsonDumps (Json.obj C) ++ '\x7d' :: r from by simp [jsonDumps]]
  simp only [hC]
  simp only [show ∀ X : List Char, skipJsonWs ('\x7d' :: X) = '\x7d' :: X
    from by intro X; simp [skipJsonWs, dropWhileL, isJsonWs]]
  simp [dictInsert]

theorem jsonParse_doc (T : String) (C D : List (String × Json)) (NC : Nat)
    (hC : ∀ (f : Nat) (r : List Char),
      parseJsonValue (f + NC) (jsonDumps (Json.obj C) ++ r) = some (Json.obj D, r))
    (hlen : NC ≤ (jsonDumps (Json.obj C)).length + 3) :
    jsonParse (jsonDumpsStr (Json.obj [("title", Json.str T), ("content", Json.obj C)]))
      = some (Json.obj [("title", Json.str T), ("content", Json.obj D)]) := by
  have hmono : (jsonDumps (Json.obj C)).length
      ≤ (jsonDumps (Json.obj [("title", Json.str T), ("content", Json.obj C)])).length := by
    simp [jsonDumps, jsonDumpsFields, List.length_append]
    omega
  set L := jsonDumps (Json.obj [("title", Json.str T), ("content", Json.obj C)]) with hL
  have hdata : (jsonDumpsStr (Json.obj [("title", Json.str T), ("content", Json.obj C)])).data
      = L := rfl
  have hslen : (jsonDumpsStr (Json.obj [("title", Json.str T), ("content", Json.obj C)])).length
      = L.length := rfl
  have key := parseValue_doc T C D NC hC (L.length + 3 - NC) []
  rw [List.append_nil, ← hL] at key
  rw [jsonParse, hdata, hslen,
    show L.length + 8 = (L.length + 3 - NC) + NC + 5 from by omega, key]
  simp [skipJsonWs, dropWhileL]

theorem createSafe_parses (y : String) :
    ∃ t c, jsonParse (create_safe_json_from_parts y)
      = some (Json.obj [("title", Json.str t), ("content", Json.obj c)]) := by
  have hempty : ∀ (f : Nat) (r : List Char),
      parseJsonValue (f + 2) (jsonDumps (Json.obj []) ++ r)
        = some (Json.obj [], r) := parseValue_objEmpty
  cases hco : keyObjCapture "\"intro\"".data y.data with
  | none =>
    simp only [create_safe_json_from_parts, hco]
    exact ⟨_, _, jsonParse_doc _ [] [] 2 hempty (by omega)⟩
  | some introText =>
    cases hp1 : keyStrCapture "\"Part 1\"".data introText with
    | none =>
      cases hp2 : keyStrCapture "\"Part 2\"".data introText with
      | none =>
        simp only [create_safe_json_from_parts, hco, hp1, hp2]
        exact ⟨_, _, jsonParse_doc _ [] [] 2 hempty (by omega)⟩
      | some b =>
        have hP : ∀ (f : Nat) (r : List Char),
            parseJsonValue (f + 6)
              (jsonDumps (Json.obj [("Part 2", Json.str (String.mk b))]) ++ r)
              = some (Json.obj [("Part 2", Json.str (String.mk b))], r) := by
          intro f r
          have h := parseValue_objStrs [] f "Part 2" (String.mk b) r
          simpa [insertAllStr, dictInsert] using h
        have hC : ∀ (f : Nat) (r : List Char),
            parseJsonValue (f + 9)
              (jsonDumps (Json.obj [("intro",
                Json.obj [("Part 2", Json.str (String.mk b))])]) ++ r)
              = some (Json.obj [("intro",
                Json.obj [("Part 2", Json.str (String.mk b))])], r) := by
          intro f r
          have h := parseValue_objWith "intro" _ _ 6 hP f r
          rw [show f + 6 + 3 = f + 9 from by ring] at h
          exact h
        simp only [create_safe_json_from_parts, hco, hp1, hp2]
        exact ⟨_, _, jsonParse_doc _ _ _ 9 hC
          (by simp [jsonDumps, jsonDumpsFields, List.length_append]; omega)⟩
    | some a =>
      cases hp2 : keyStrCapture "\"Part 2\"".data introText with
      | none =>
        have hP : ∀ (f : Nat) (r : List Char),
            parseJsonValue (f + 6)
              (jsonDumps (Json.obj [("Part 1", Json.str (String.mk a))]) ++ r)
              = some (Json.obj [("Part 1", Json.str (String.mk a))], r) := by
          intro f r
          have h := parseValue_objStrs [] f "Part 1" (String.mk a) r
          simpa [insertAllStr, dictInsert] using h
        have hC : ∀ (f : Nat) (r : List Char),
            parseJsonValue (f + 9)
              (jsonDumps (Json.obj [("intro",
                Json.obj [("Part 1", Json.str (String.mk a))])]) ++ r)
              = some (Json.obj [("intro",
                Json.obj [("Part 1", Json.str (String.mk a))])], r) := by
          intro f r
          have h := parseValue_objWith "intro" _ _ 6 hP f r
          rw [show f + 6 + 3 = f + 9 from by ring] at h
          exact h
        simp only [create_safe_json_from_parts, hco, hp1, hp2]
        exact ⟨_, _, jsonParse_doc _ _ _ 9 hC
          (by simp [jsonDumps, jsonDumpsFields, List.length_append]; omega)⟩
      | some b =>
        have hP : ∀ (f : Nat) (r : List Char),
            parseJsonValue (f + 8)
              (jsonDumps (Json.obj [("Part 1", Json.str (String.mk a)),
                ("Part 2", Json.str (String.mk b))]) ++ r)
              = some (Json.obj [("Part 1", Json.str (String.mk a)),
                ("Part 2", Json.str (String.mk b))], r) := by
          intro f r
          have h := parseValue_objStrs [("Part 2", String.mk b)] f "Part 1"
            (String.mk a) r
          simpa [insertAllStr, dictInsert] using h
        have hC : ∀ (f : Nat) (r : List Char),
            parseJsonValue (f + 11)
              (jsonDumps (Json.obj [("intro",
                Json.obj [("Part 1", Json.str (String.mk a)),
                  ("Part 2", Json.str (String.mk b))])]) ++ r)
              = some (Json.obj [("intro",
                Json.obj [("Part 1", Json.str (String.mk a)),
                  ("Part 2", Json.str (String.mk b))])], r) := by
          intro f r
          have h := parseValue_objWith "intro" _ _ 8 hP f r
          rw [show f + 8 + 3 = f + 11 from by ring] at h
          exact h
        simp only [create_safe_json_from_parts, hco, hp1, hp2]
        exact ⟨_, _, jsonParse_doc _ _ _ 11 hC
          (by simp [jsonDumps, jsonDumpsFields, List.length_append]; omega)⟩

theorem fix_total (t : String) : ∃ d, jsonParse (fix_json_structure t) = some d := by
  rw [fix_json_structure]
  split
  · next h =>
    exact Option.isSome_iff_exists.mp h.2
  · next h =>
    cases hp : jsonParse (String.mk (fix_stage2 (fix_pre_stage t))) with
    | some d =>
      simp only [hp]
      exact ⟨d, rfl⟩
    | none =>
      simp only [hp]
      obtain ⟨a, c, hc⟩ := createSafe_parses (String.mk (fix_stage2 (fix_pre_stage t)))
      exact ⟨_, hc⟩

theorem clean_total (s : String) : ∃ d, jsonParse (clean_gemini_response s) = some d := by
  rw [clean_gemini_response]
  cases hf : fenceSearch s.data with
  | some g => exact fix_total _
  | none =>
    cases hb : braceSpan s.data with
    | some g => exact fix_total _
    | none => exact fix_total _

/-- C1 (counterexample): on the empty string the repair pipeline
produces the empty object, which has neither `title` nor
`content.intro`, so repair does not always populate those fields. -/
theorem C1_counterexample :
    jsonParse (clean_gemini_response "") = some (Json.obj [])
      ∧ jPath (Json.obj []) ["title"] = none
      ∧ jPath (Json.obj []) ["content", "intro"] = none := by
  exact ⟨rfl, rfl, rfl⟩

/-- C1 (amended): the repair pipeline never fails — `clean_gemini_response`
always returns parseable JSON — and the salvage serialiser
`create_safe_json_from_parts` always yields a document with a string
`title` and an object `content`; but repair of arbitrary input need not
populate `title` or `content.intro` (see the counterexample). -/
theorem C1_amended (s : String) :
    (∃ d, jsonParse (clean_gemini_response s) = some d) ∧
    (∃ t c, jsonParse (create_safe_json_from_parts s)
      = some (Json.obj [("title", Json.str t), ("content", Json.obj c)])) :=
  ⟨clean_total s, createSafe_parses s⟩

/- Helper lemmas for the repair-stage identity on well-formed one-field
documents over the safe alphabets: none of the fixup regexes can match
(each needs a whitespace character right after a quote or closing brace,
or at least five quotes), the balance scan is neutral, and the sanitiser
leaves safe string contents unchanged. -/

theorem mkDoc_data (k v : String) : (mkDoc k v).data = mkDocL k.data v.data := by
  simp [mkDoc, mkDocL, String.data_append]

theorem spanL_decomp (p : Char → Bool) (l : List Char) :
    l = (spanL p l).1 ++ (spanL p l).2 := by
  induction l with
  | nil => rfl
  | cons c cs ih =>
    by_cases h : p c
    · simp [spanL, h]
      exact ih
    · simp [spanL, h]

theorem spanL_stop (p : Char → Bool) (seg : List Char) (d : Char) (rest : List Char)
    (hseg : ∀ c ∈ seg, p c = true) (hd : p d = false) :
    spanL p (seg ++ d :: rest) = (seg, d :: rest) := by
  induction seg with
  | nil => simp [spanL, hd]
  | cons c cs ih =>
    have hc : p c = true := hseg c (by simp)
    have ih' := ih (fun c hc => hseg c (by simp [hc]))
    simp [spanL, hc, ih']

theorem dropWhileL_decomp (p : Char → Bool) (l : List Char) :
    ∃ w, l = w ++ dropWhileL p l ∧ ∀ c ∈ w, p c = true := by
  induction l with
  | nil => exact ⟨[], rfl, by simp⟩
  | cons c cs ih =>
    by_cases h : p c
    · obtain ⟨w, hw, hall⟩ := ih
      refine ⟨c :: w, ?_, ?_⟩
      · simp [dropWhileL, h]
        exact hw
      · intro d hd
        rcases List.mem_cons.mp hd with h1 | h1
        · subst h1; exact h
        · exact hall d h1
    · exact ⟨[], by simp [dropWhileL, h], by simp⟩

theorem isPrefixL_decomp (lit l : List Char) (h : isPrefixL lit l = true) :
    l = lit ++ l.drop lit.length := by
  induction lit generalizing l with
  | nil => simp
  | cons p ps ih =>
    cases l with
    | nil => simp [isPrefixL] at h
    | cons c cs =>
      simp [isPrefixL] at h
      obtain ⟨h1, h2⟩ := h
      subst h1
      simpa using ih cs h2

theorem skipWsThen_decomp (lit l r : List Char) (h : skipWsThen lit l = some r) :
    ∃ w, l = w ++ (lit ++ r) ∧ ∀ c ∈ w, isPyWs c = true := by
  unfold skipWsThen at h
  by_cases hp : isPrefixL lit (dropWhileL isPyWs l) = true
  · simp [hp] at h
    obtain ⟨w, hw, hall⟩ := dropWhileL_decomp isPyWs l
    refine ⟨w, ?_, hall⟩
    rw [hw, ← h]
    have := isPrefixL_decomp lit (dropWhileL isPyWs l) hp
    exact congrArg (w ++ ·) this
  · simp [hp] at h

theorem hasAdj_intro (p q : Char → Bool) (x : List Char) (d w : Char) (y : List Char)
    (hd : p d = true) (hw : q w = true) :
    hasAdj p q (x ++ d :: w :: y) = true := by
  induction x with
  | nil => simp [hasAdj, hd, hw]
  | cons a x' ih =>
    cases hx : x' ++ d :: w :: y with
    | nil => simp at hx
    | cons b r =>
      show hasAdj p q (a :: (x' ++ d :: w :: y)) = true
      rw [hx]
      show ((p a && q b) || hasAdj p q (b :: r)) = true
      rw [← hx, ih]
      simp

theorem hasAdj_append_right (p q : Char → Bool) (xs ys : List Char)
    (h : hasAdj p q ys = true) :
    hasAdj p q (xs ++ ys) = true := by
  induction xs with
  | nil => simpa using h
  | cons a xs' ih =>
    cases hx : xs' ++ ys with
    | nil =>
      rcases List.append_eq_nil.mp hx with ⟨_, h2⟩
      subst h2
      simp [hasAdj] at h
    | cons b r =>
      show hasAdj p q (a :: (xs' ++ ys)) = true
      rw [hx]
      show ((p a && q b) || hasAdj p q (b :: r)) = true
      rw [← hx, ih]
      simp

theorem hasAdj_suffix (p q : Char → Bool) (t l : List Char) (hs : t <:+ l)
    (h : hasAdj p q t = true) : hasAdj p q l = true := by
  obtain ⟨x, hx⟩ := hs
  rw [← hx]
  exact hasAdj_append_right p q x t h

theorem hasAdj_skip_seg (p q : Char → Bool) (seg rest : List Char)
    (hseg : ∀ c ∈ seg, q c = false)
    (hrest : hasAdj p q rest = false)
    (hhead : ∀ c, rest.head? = some c → q c = false) :
    hasAdj p q (seg ++ rest) = false := by
  induction seg with
  | nil => simpa using hrest
  | cons a seg' ih =>
    have ih' := ih (fun c hc => hseg c (by simp [hc]))
    cases hx : seg' ++ rest with
    | nil =>
      show hasAdj p q (a :: (seg' ++ rest)) = false
      rw [hx]
      rfl
    | cons b r =>
      show hasAdj p q (a :: (seg' ++ rest)) = false
      rw [hx]
      show ((p a && q b) || hasAdj p q (b :: r)) = false
      rw [← hx, ih']
      have hqb : q b = false := by
        cases seg' with
        | nil =>
          rw [List.nil_append] at hx
          exact hhead b (by rw [hx]; rfl)
        | cons e seg'' =>
          rw [List.cons_append] at hx
          injection hx with h1 h2
          exact hseg b (by rw [h1]; simp)
      simp [hqb]

theorem okChar_not_ws (c : Char) (h : okChar c = true) : isPyWs c = false := by
  simp [okChar] at h
  obtain ⟨⟨⟨⟨h1, _⟩, _⟩, _⟩, _⟩ := h
  cases hw : isPyWs c
  · rfl
  · exfalso
    simp [isPyWs] at hw
    rcases hw with ((((h2 | h2) | h2) | h2) | h2) | h2 <;> (subst h2; exact absurd h1 (by decide))

theorem okCharNB_ok (c : Char) (h : okCharNB c = true) : okChar c = true := by
  simp [okCharNB] at h
  exact h.1.1

theorem hasAdj_mkDocL_false (p : Char → Bool) (k v : List Char)
    (hp1 : p ':' = false) (hp2 : p ' ' = false)
    (hk : ∀ c ∈ k, isPyWs c = false) (hv : ∀ c ∈ v, isPyWs c = false) :
    hasAdj p isPyWs (mkDocL k v) = false := by
  have hA3 : hasAdj p isPyWs ('"' :: (v ++ ['"', '\x7d'])) = false := by
    have : ('"' : Char) :: (v ++ ['"', '\x7d'])
        = ('"' :: v) ++ ['"', '\x7d'] := by simp
    rw [this]
    apply hasAdj_skip_seg
    · intro c hc
      rcases List.mem_cons.mp hc with h1 | h1
      · subst h1; rfl
      · exact hv c h1
    · simp [hasAdj, isPyWs]
    · intro c hc
      simp at hc
      subst hc
      rfl
  have hmid : hasAdj p isPyWs (':' :: ' ' :: '"' :: (v ++ ['"', '\x7d'])) = false := by
    show ((p ':' && isPyWs ' ') || hasAdj p isPyWs (' ' :: '"' :: (v ++ ['"', '\x7d']))) = false
    rw [hp1]
    show hasAdj p isPyWs (' ' :: '"' :: (v ++ ['"', '\x7d'])) = false
    show ((p ' ' && isPyWs '"') || hasAdj p isPyWs ('"' :: (v ++ ['"', '\x7d']))) = false
    rw [hp2, hA3]
    rfl
  show hasAdj p isPyWs ('\x7b' :: '"' :: (k ++ '"' :: ':' :: ' ' :: '"' :: (v ++ ['"', '\x7d']))) = false
  have hre : ('\x7b' : Char) :: '"' :: (k ++ '"' :: ':' :: ' ' :: '"' :: (v ++ ['"', '\x7d']))
      = ('\x7b' :: '"' :: k ++ ['"']) ++ (':' :: ' ' :: '"' :: (v ++ ['"', '\x7d'])) := by
    simp
  rw [hre]
  apply hasAdj_skip_seg
  · intro c hc
    simp at hc
    rcases hc with h1 | h1 | h1 | h1
    · subst h1; rfl
    · subst h1; rfl
    · exact hk c h1
    · subst h1; rfl
  · exact hmid
  · intro c hc
    simp at hc
    subst hc
    rfl

theorem spanL_prop (p : Char → Bool) (l : List Char) :
    ∀ c ∈ (spanL p l).1, p c = true := by
  induction l with
  | nil => simp [spanL]
  | cons c cs ih =>
    intro d hd
    by_cases h : p c
    · simp [spanL, h] at hd
      rcases hd with h1 | h1
      · subst h1; exact h
      · exact ih d h1
    · simp [spanL, h] at hd

theorem dropWhileL_suffix (p : Char → Bool) (l : List Char) :
    dropWhileL p l <:+ l := by
  obtain ⟨w, hw, _⟩ := dropWhileL_decomp p l
  exact ⟨w, hw.symm⟩

theorem skipWsThen_suffix (lit l r : List Char) (h : skipWsThen lit l = some r) :
    r <:+ l := by
  obtain ⟨w, hw, _⟩ := skipWsThen_decomp lit l r h
  exact ⟨w ++ lit, by rw [hw]; simp⟩

theorem qbAnchor_quote : (fun c => c = '"' || c = '\x7d') '"' = true := by decide

theorem qbAnchor_brace : (fun c => c = '"' || c = '\x7d') '\x7d' = true := by decide

theorem match56_adj (t r : List Char) (h : match56 t = some r) :
    hasAdj (fun c => c = '"' || c = '\x7d') isPyWs t = true := by
  rw [match56.eq_def] at h
  split at h
  case _ r1 =>
    rcases hsp : spanL (fun c => c ≠ '"') r1 with ⟨g1, r2⟩
    rw [hsp] at h
    dsimp only at h
    by_cases hg : g1 = []
    · simp [hg] at h
    rw [if_neg hg] at h
    split at h
    case _ r3 =>
      cases hsw : skipWsThen [':'] r3 with
      | none => rw [hsw] at h; exact absurd h (by simp)
      | some r4 =>
        rw [hsw] at h
        dsimp only at h
        split at h
        case _ r5 heq =>
          rcases hsp2 : spanL (fun c => c ≠ '"') r5 with ⟨g2, r6⟩
          rw [hsp2] at h
          dsimp only at h
          split at h
          case _ r7 =>
            rcases hsp3 : spanL isPyWs r7 with ⟨ws, r8⟩
            rw [hsp3] at h
            dsimp only at h
            by_cases hws : ws = []
            · simp [hws] at h
            -- ws nonempty: its head is a whitespace char following the quote
            cases ws with
            | nil => exact absurd rfl hws
            | cons wc ws' =>
              have hwc : isPyWs wc = true := by
                have := spanL_prop isPyWs r7
                rw [hsp3] at this
                exact this wc (by simp)
              have hr7 : r7 = wc :: (ws' ++ r8) := by
                have := spanL_decomp isPyWs r7
                rw [hsp3] at this
                simpa using this
              have hsub : ('"' :: r7) <:+ ('"' :: r1) := by
                have h1 : ('"' :: r7) <:+ r5 := by
                  have := spanL_decomp (fun c => c ≠ '"') r5
                  rw [hsp2] at this
                  exact ⟨g2, this.symm⟩
                have h2 : r5 <:+ dropWhileL isPyWs r4 := by
                  rw [heq]
                  exact ⟨['"'], rfl⟩
                have h3 : dropWhileL isPyWs r4 <:+ r4 := dropWhileL_suffix _ _
                have h4 : r4 <:+ r3 := skipWsThen_suffix _ _ _ hsw
                have h5 : r3 <:+ ('"' :: r3) := ⟨['"'], rfl⟩
                have h6 : ('"' :: r3) <:+ r1 := by
                  have := spanL_decomp (fun c => c ≠ '"') r1
                  rw [hsp] at this
                  exact ⟨g1, this.symm⟩
                have h7 : r1 <:+ ('"' :: r1) := ⟨['"'], rfl⟩
                exact (((((h1.trans h2).trans h3).trans h4).trans h5).trans h6).trans h7
              refine hasAdj_suffix _ _ _ _ hsub ?_
              rw [hr7]
              exact hasAdj_intro _ _ [] '"' wc _ qbAnchor_quote hwc
          case _ hne => exact absurd h (by simp)
        case _ hne => exact absurd h (by simp)
    case _ hne => exact absurd h (by simp)
  case _ hne => exact absurd h (by simp)

theorem match57_adj (t r : List Char) (h : match57 t = some r) :
    hasAdj (fun c => c = '"' || c = '\x7d') isPyWs t = true := by
  rw [match57.eq_def] at h
  split at h
  case _ r1 =>
    rcases hsp : spanL (fun c => c ≠ '"') r1 with ⟨g1, r2⟩
    rw [hsp] at h
    dsimp only at h
    by_cases hg : g1 = []
    · simp [hg] at h
    rw [if_neg hg] at h
    split at h
    case _ r3 =>
      cases hb : skipWsThen [':'] r3 >>= skipWsThen ['\x7b'] with
      | none => rw [hb] at h; exact absurd h (by simp)
      | some r5 =>
          rw [hb] at h
          obtain ⟨r4, hsw1, hsw2⟩ := Option.bind_eq_some.mp hb
          dsimp only at h
          rcases hsp2 : spanL (fun c => c ≠ '\x7b' ∧ c ≠ '\x7d') r5 with ⟨g2, r6⟩
          rw [hsp2] at h
          dsimp only at h
          split at h
          case _ r7 =>
            rcases hsp3 : spanL isPyWs r7 with ⟨ws, r8⟩
            rw [hsp3] at h
            dsimp only at h
            by_cases hws : ws = []
            · simp [hws] at h
            cases ws with
            | nil => exact absurd rfl hws
            | cons wc ws' =>
              have hwc : isPyWs wc = true := by
                have := spanL_prop isPyWs r7
                rw [hsp3] at this
                exact this wc (by simp)
              have hr7 : r7 = wc :: (ws' ++ r8) := by
                have := spanL_decomp isPyWs r7
                rw [hsp3] at this
                simpa using this
              have hsub : ('\x7d' :: r7) <:+ ('"' :: r1) := by
                have h1 : ('\x7d' :: r7) <:+ r5 := by
                  have := spanL_decomp (fun c => c ≠ '\x7b' ∧ c ≠ '\x7d') r5
                  rw [hsp2] at this
                  exact ⟨g2, this.symm⟩
                have h2 : r5 <:+ r4 := skipWsThen_suffix _ _ _ hsw2
                have h3 : r4 <:+ r3 := skipWsThen_suffix _ _ _ hsw1
                have h4 : r3 <:+ ('"' :: r3) := ⟨['"'], rfl⟩
                have h5 : ('"' :: r3) <:+ r1 := by
                  have := spanL_decomp (fun c => c ≠ '"') r1
                  rw [hsp] at this
                  exact ⟨g1, this.symm⟩
                have h6 : r1 <:+ ('"' :: r1) := ⟨['"'], rfl⟩
                exact ((((h1.trans h2).trans h3).trans h4).trans h5).trans h6
              refine hasAdj_suffix _ _ _ _ hsub ?_
              rw [hr7]
              exact hasAdj_intro _ _ [] '\x7d' wc _ qbAnchor_brace hwc
          case _ hne => exact absurd h (by simp)
    case _ hne => exact absurd h (by simp)
  case _ hne => exact absurd h (by simp)

theorem match60_adj (t r : List Char) (h : match60 t = some r) :
    hasAdj (fun c => c = '"' || c = '\x7d') isPyWs t = true := by
  rw [match60.eq_def] at h
  split at h
  case _ r1 =>
    rcases hsp : spanL isPyWs r1 with ⟨ws, r2⟩
    rw [hsp] at h
    dsimp only at h
    by_cases hc : '\n' ∈ ws
    · cases ws with
      | nil => simp at hc
      | cons wc ws' =>
        have hwc : isPyWs wc = true := by
          have := spanL_prop isPyWs r1
          rw [hsp] at this
          exact this wc (by simp)
        have hr : r1 = wc :: (ws' ++ r2) := by
          have := spanL_decomp isPyWs r1
          rw [hsp] at this
          simpa using this
        rw [hr]
        exact hasAdj_intro _ _ [] '\x7d' wc _ qbAnchor_brace hwc
    · simp at h
      exact absurd h.1 hc
  case _ hne => exact absurd h (by simp)

theorem match61_adj (t r : List Char) (h : match61 t = some r) :
    hasAdj (fun c => c = '"' || c = '\x7d') isPyWs t = true := by
  rw [match61.eq_def] at h
  split at h
  case _ r1 =>
    rcases hsp : spanL isPyWs r1 with ⟨ws, r2⟩
    rw [hsp] at h
    dsimp only at h
    by_cases hc : '\n' ∈ ws
    · cases ws with
      | nil => simp at hc
      | cons wc ws' =>
        have hwc : isPyWs wc = true := by
          have := spanL_prop isPyWs r1
          rw [hsp] at this
          exact this wc (by simp)
        have hr : r1 = wc :: (ws' ++ r2) := by
          have := spanL_decomp isPyWs r1
          rw [hsp] at this
          simpa using this
        rw [hr]
        exact hasAdj_intro _ _ [] '"' wc _ qbAnchor_quote hwc
    · simp at h
      exact absurd h.1 hc
  case _ hne => exact absurd h (by simp)

theorem globalSubC_id (m : List Char → Option (List Char)) (repl : List Char) :
    ∀ (l : List Char) (fuel : Nat), (∀ t, t <:+ l → m t = none) →
      globalSubC m repl fuel l = l := by
  intro l
  induction l with
  | nil => intro fuel _; cases fuel <;> rfl
  | cons c cs ih =>
    intro fuel hm
    cases fuel with
    | zero => rfl
    | succ f =>
      rw [globalSubC]
      rw [hm (c :: cs) (List.suffix_refl _)]
      rw [ih f (fun t ht => hm t (ht.trans ⟨[c], rfl⟩))]

theorem globalSubF_id (m : List Char → Option (List Char × List Char)) :
    ∀ (l : List Char) (fuel : Nat), (∀ t, t <:+ l → m t = none) →
      globalSubF m fuel l = l := by
  intro l
  induction l with
  | nil => intro fuel _; cases fuel <;> rfl
  | cons c cs ih =>
    intro fuel hm
    cases fuel with
    | zero => rfl
    | succ f =>
      rw [globalSubF]
      rw [hm (c :: cs) (List.suffix_refl _)]
      rw [ih f (fun t ht => hm t (ht.trans ⟨[c], rfl⟩))]

theorem countChar_suffix_le (ch : Char) (t l : List Char) (h : t <:+ l) :
    countChar ch t ≤ countChar ch l := by
  obtain ⟨x, hx⟩ := h
  rw [← hx]
  simp [countChar]

theorem countChar_mkDocL (k v : List Char)
    (hk : ∀ c ∈ k, c ≠ '"') (hv : ∀ c ∈ v, c ≠ '"') :
    countChar '"' (mkDocL k v) = 4 := by
  simp [mkDocL, countChar, List.count_cons, List.count_append]
  rw [List.count_eq_zero.mpr ?_, List.count_eq_zero.mpr ?_]
  · intro hc
    exact absurd rfl (hv '"' hc)
  · intro hc
    exact absurd rfl (hk '"' hc)

theorem matchCommaFix_quotes (t : List Char) (pr : List Char × List Char)
    (h : matchCommaFix t = some pr) : 5 ≤ countChar '"' t := by
  rw [matchCommaFix.eq_def] at h
  split at h
  case _ r1 =>
    rcases hsp : spanL (fun c => c ≠ '"') r1 with ⟨g1, r2⟩
    rw [hsp] at h
    dsimp only at h
    by_cases hg : g1 = []
    · simp [hg] at h
    rw [if_neg hg] at h
    split at h
    case _ r3 =>
      rcases hsp2 : spanL isPyWs r3 with ⟨ws1, r4⟩
      rw [hsp2] at h
      dsimp only at h
      split at h
      case _ r5 =>
        rcases hsp3 : spanL isPyWs r5 with ⟨ws2, r6⟩
        rw [hsp3] at h
        dsimp only at h
        split at h
        case _ r7 =>
          rcases hsp4 : spanL (fun c => c ≠ '"') r7 with ⟨g2, r8⟩
          rw [hsp4] at h
          dsimp only at h
          split at h
          case _ r9 =>
            rcases hsp5 : spanL isPyWs r9 with ⟨ws3, r10⟩
            rw [hsp5] at h
            dsimp only at h
            split at h
            case _ r11 =>
              have e1 : r1 = g1 ++ '"' :: r3 := by
                have := spanL_decomp (fun c => c ≠ '"') r1
                rw [hsp] at this
                exact this
              have e2 : r3 = ws1 ++ ':' :: r5 := by
                have := spanL_decomp isPyWs r3
                rw [hsp2] at this
                exact this
              have e3 : r5 = ws2 ++ '"' :: r7 := by
                have := spanL_decomp isPyWs r5
                rw [hsp3] at this
                exact this
              have e4 : r7 = g2 ++ '"' :: r9 := by
                have := spanL_decomp (fun c => c ≠ '"') r7
                rw [hsp4] at this
                exact this
              have e5 : r9 = ws3 ++ '"' :: r11 := by
                have := spanL_decomp isPyWs r9
                rw [hsp5] at this
                exact this
              rw [e1, e2, e3, e4, e5]
              simp [countChar, List.count_append, List.count_cons]
              omega
            case _ hne => exact absurd h (by simp)
          case _ hne => exact absurd h (by simp)
        case _ hne => exact absurd h (by simp)
      case _ hne => exact absurd h (by simp)
    case _ hne => exact absurd h (by simp)
  case _ hne => exact absurd h (by simp)

theorem suffAfterLit_suffix (lit : List Char) (l r : List Char)
    (h : r ∈ suffAfterLit lit l) : r <:+ l := by
  induction l with
  | nil =>
    unfold suffAfterLit at h
    by_cases hp : isPrefixL lit [] = true
    · simp [hp] at h
      subst h
      exact List.suffix_refl _
    · simp [hp] at h
  | cons c cs ih =>
    unfold suffAfterLit at h
    rcases List.mem_append.mp h with h1 | h1
    · by_cases hp : isPrefixL lit (c :: cs) = true
      · simp [hp] at h1
        subst h1
        exact List.drop_suffix _ _
      · simp [hp] at h1
    · exact (ih h1).trans ⟨[c], rfl⟩

theorem introMissingClose_adj (l : List Char) (h : introMissingClose l = true) :
    hasAdj (fun c => c = 't') isPyWs l = true := by
  unfold introMissingClose at h
  rw [List.any_eq_true] at h
  obtain ⟨suf, hmem, hsuf⟩ := h
  have hsufl : suf <:+ l := (List.mem_tails _ _).mp hmem
  -- suf must start with an opening brace
  split at hsuf
  case _ r =>
    cases ht : skipWsThen "\"title\"".data r with
    | none => rw [ht] at hsuf; simp at hsuf
    | some r1 =>
      rw [ht] at hsuf
      dsimp only at hsuf
      rw [List.any_eq_true] at hsuf
      obtain ⟨r2, hmem2, hinner⟩ := hsuf
      cases hchain : skipWsThen [':'] r2 >>= skipWsThen ['\x7b'] >>=
          skipWsThen "\"intro\"".data >>= skipWsThen [':'] >>=
          skipWsThen ['\x7b'] >>= skipWsThen "\"Part 1\"".data >>=
          skipWsThen [':'] with
      | none => rw [hchain] at hinner; simp at hinner
      | some r3 =>
        obtain ⟨u', hA, _⟩ := Option.bind_eq_some.mp hchain
        obtain ⟨u, hB, hP1⟩ := Option.bind_eq_some.mp hA
        obtain ⟨w, hw, _⟩ := skipWsThen_decomp _ _ _ hP1
        -- u contains the literal "Part 1" with its internal space
        have hadj : hasAdj (fun c => c = 't') isPyWs u = true := by
          rw [hw]
          have : w ++ ("\"Part 1\"".data ++ u')
              = (w ++ ['"', 'P', 'a', 'r']) ++ 't' :: ' ' :: ('1' :: '"' :: u') := by
            simp
          rw [this]
          exact hasAdj_intro _ _ _ 't' ' ' _ (by decide) (by decide)
        -- u is a suffix of l
        obtain ⟨u0, hC, hl5⟩ := Option.bind_eq_some.mp hB
        obtain ⟨u1, hD, hl4⟩ := Option.bind_eq_some.mp hC
        obtain ⟨u2, hE, hl3⟩ := Option.bind_eq_some.mp hD
        obtain ⟨u3, hl1, hl2⟩ := Option.bind_eq_some.mp hE
        have hsu : u <:+ l := by
          have s1 : u <:+ u0 := skipWsThen_suffix _ _ _ hl5
          have s2 : u0 <:+ u1 := skipWsThen_suffix _ _ _ hl4
          have s3 : u1 <:+ u2 := skipWsThen_suffix _ _ _ hl3
          have s4 : u2 <:+ u3 := skipWsThen_suffix _ _ _ hl2
          have s5 : u3 <:+ r2 := skipWsThen_suffix _ _ _ hl1
          have s6 : r2 <:+ r1 := suffAfterLit_suffix _ _ _ hmem2
          have s7 : r1 <:+ r := skipWsThen_suffix _ _ _ ht
          have s8 : r <:+ ('\x7b' :: r) := ⟨['\x7b'], rfl⟩
          exact (((((((s1.trans s2).trans s3).trans s4).trans s5).trans s6).trans
            s7).trans s8).trans hsufl
        exact hasAdj_suffix _ _ _ _ hsu hadj
  case _ hne => simp at hsuf

theorem balanceGo_instr_step (prev : Option Char) (st i : Nat) (c : Char)
    (cs : List Char) (hc : c ≠ '"') :
    balanceGo prev true st i (c :: cs) = balanceGo (some c) true st (i + 1) cs := by
  rw [balanceGo.eq_def]
  simp [hc]

theorem balanceGo_instr_seg (seg : List Char) (hseg : ∀ c ∈ seg, c ≠ '"') :
    ∀ (prev : Option Char) (st i : Nat) (rest : List Char),
      balanceGo prev true st i (seg ++ rest)
        = balanceGo (seg.foldl (fun _ c => some c) prev) true st (i + seg.length) rest := by
  induction seg with
  | nil => intro prev st i rest; simp
  | cons c seg' ih =>
    intro prev st i rest
    have hc : c ≠ '"' := hseg c (by simp)
    show balanceGo prev true st i (c :: (seg' ++ rest)) = _
    rw [balanceGo_instr_step _ _ _ _ _ hc,
      ih (fun d hd => hseg d (by simp [hd])) (some c) st (i + 1) rest]
    simp only [List.foldl_cons, List.length_cons]
    congr 1
    omega

theorem okChar_spec (c : Char) (h : okChar c = true) :
    33 ≤ c.toNat ∧ c ≠ '"' ∧ c ≠ '\\' ∧ c ≠ '$' ∧ c ≠ '`' := by
  simp [okChar] at h
  obtain ⟨⟨⟨⟨h1, h2⟩, h3⟩, h4⟩, h5⟩ := h
  exact ⟨h1, h2, h3, h4, h5⟩

theorem okCharNB_spec (c : Char) (h : okCharNB c = true) :
    okChar c = true ∧ c ≠ '\x7b' ∧ c ≠ '\x7d' := by
  simp [okCharNB] at h
  obtain ⟨⟨h1, h2⟩, h3⟩ := h
  exact ⟨h1, h2, h3⟩

theorem foldl_prev_ne (seg : List Char) (hseg : ∀ c ∈ seg, c ≠ '\\') :
    ∀ (prev : Option Char), (∀ p, prev = some p → p ≠ '\\') →
      ∀ p, seg.foldl (fun _ c => some c) prev = some p → p ≠ '\\' := by
  induction seg with
  | nil => intro prev hprev p hp; exact hprev p hp
  | cons c cs ih =>
    intro prev hprev p hp
    simp only [List.foldl_cons] at hp
    exact ih (fun d hd => hseg d (by simp [hd])) (some c)
      (fun q hq => by injection hq with hq'; rw [← hq']; exact hseg c (by simp)) p hp

theorem bgQuote (prev : Option Char) (b : Bool) (st i : Nat) (cs : List Char)
    (hprev : ∀ p, prev = some p → p ≠ '\\') :
    balanceGo prev b st i ('"' :: cs) = balanceGo (some '"') (!b) st (i + 1) cs := by
  cases prev with
  | none => rw [balanceGo.eq_def]; cases b <;> simp
  | some p =>
    have hp : p ≠ '\\' := hprev p rfl
    rw [balanceGo.eq_def]; cases b <;> simp [hp]

theorem bgOther (prev : Option Char) (st i : Nat) (c : Char) (cs : List Char)
    (h1 : c ≠ '"') (h2 : c ≠ '\x7b') (h3 : c ≠ '\x7d') :
    balanceGo prev false st i (c :: cs) = balanceGo (some c) false st (i + 1) cs := by
  rw [balanceGo.eq_def]; simp [h1, h2, h3]

theorem bgOpen (prev : Option Char) (st i : Nat) (cs : List Char) :
    balanceGo prev false st i ('\x7b' :: cs)
      = balanceGo (some '\x7b') false (st + 1) (i + 1) cs := by
  rw [balanceGo.eq_def]; simp

theorem bgClose (prev : Option Char) (st i : Nat) (cs : List Char) :
    balanceGo prev false (st + 1) i ('\x7d' :: cs)
      = balanceGo (some '\x7d') false st (i + 1) cs := by
  rw [balanceGo.eq_def]; simp

theorem balanceGo_mkDocL (k v : List Char)
    (hk : ∀ c ∈ k, okCharNB c = true) (hv : ∀ c ∈ v, okChar c = true) :
    balanceGo none false 0 0 (mkDocL k v) = ([], 0) := by
  have hkq : ∀ c ∈ k, c ≠ '"' :=
    fun c hc => ((okChar_spec c (okCharNB_spec c (hk c hc)).1).2).1
  have hkb : ∀ c ∈ k, c ≠ '\\' :=
    fun c hc => ((okChar_spec c (okCharNB_spec c (hk c hc)).1).2).2.1
  have hvq : ∀ c ∈ v, c ≠ '"' := fun c hc => ((okChar_spec c (hv c hc)).2).1
  have hvb : ∀ c ∈ v, c ≠ '\\' := fun c hc => ((okChar_spec c (hv c hc)).2).2.1
  show balanceGo none false 0 0
    ('\x7b' :: '"' :: (k ++ '"' :: ':' :: ' ' :: '"' :: (v ++ ['"', '\x7d']))) = ([], 0)
  rw [show (0 : Nat) = 0 + 0 from rfl]
  rw [bgOpen]
  rw [bgQuote _ _ _ _ _ (fun p hp => by injection hp with h; rw [← h]; decide)]
  rw [show (!false) = true from rfl]
  rw [balanceGo_instr_seg k hkq]
  rw [bgQuote _ _ _ _ _
    (foldl_prev_ne k hkb (some '"') (fun p hp => by injection hp with h; rw [← h]; decide))]
  rw [show (!true) = false from rfl]
  rw [bgOther _ _ _ _ _ (by decide) (by decide) (by decide)]
  rw [bgOther _ _ _ _ _ (by decide) (by decide) (by decide)]
  rw [bgQuote _ _ _ _ _ (fun p hp => by injection hp with h; rw [← h]; decide)]
  rw [show (!false) = true from rfl]
  rw [balanceGo_instr_seg v hvq]
  rw [bgQuote _ _ _ _ _
    (foldl_prev_ne v hvb (some '"') (fun p hp => by injection hp with h; rw [← h]; decide))]
  rw [show (!true) = false from rfl]
  rw [show (0 + 0 + 1 : Nat) = 0 + 1 from rfl]
  rw [bgClose]
  rfl

theorem balanceCore_mkDocL (k v : List Char)
    (hk : ∀ c ∈ k, okCharNB c = true) (hv : ∀ c ∈ v, okChar c = true) :
    balanceCore (mkDocL k v) = mkDocL k v := by
  unfold balanceCore
  rw [balanceGo_mkDocL k v hk hv]
  show removeMarked 0 (mkDocL k v) [] ++ List.replicate 0 '\x7d' = mkDocL k v
  rw [removeMarked]
  simp

theorem ensureTrailing_mkDocL (k v : List Char) :
    ensureTrailing (mkDocL k v) = mkDocL k v := by
  unfold ensureTrailing
  rw [if_pos]
  have : mkDocL k v
      = ('\x7b' :: '"' :: (k ++ '"' :: ':' :: ' ' :: '"' :: (v ++ ['"']))) ++ ['\x7d'] := by
    simp [mkDocL]
  rw [this, List.getLast?_concat]

theorem fix_stage2_mkDocL (k v : List Char)
    (hk : ∀ c ∈ k, okCharNB c = true) (hv : ∀ c ∈ v, okChar c = true) :
    fix_stage2 (mkDocL k v) = mkDocL k v := by
  unfold fix_stage2
  rw [balanceCore_mkDocL k v hk hv, ensureTrailing_mkDocL]

theorem escapeJsonStr_id (s : List Char)
    (h : ∀ c ∈ s, 33 ≤ c.toNat ∧ c ≠ '"' ∧ c ≠ '\\') : escapeJsonStr s = s := by
  induction s with
  | nil => rfl
  | cons c cs ih =>
    obtain ⟨h33, hq, hb⟩ := h c (by simp)
    have hone : escapeJsonChar c = [c] := by
      have hn : c ≠ '\n' := by intro he; subst he; exact absurd h33 (by decide)
      have ht : c ≠ '\t' := by intro he; subst he; exact absurd h33 (by decide)
      have hr : c ≠ '\x0d' := by intro he; subst he; exact absurd h33 (by decide)
      have hb8 : c ≠ '\x08' := by intro he; subst he; exact absurd h33 (by decide)
      have hf : c ≠ '\x0c' := by intro he; subst he; exact absurd h33 (by decide)
      have hlt : ¬(c.toNat < 32) := by omega
      simp [escapeJsonChar, hq, hb, hn, ht, hr, hb8, hf, hlt]
    show escapeJsonChar c ++ escapeJsonStr cs = c :: cs
    rw [hone, ih (fun d hd => h d (by simp [hd]))]
    rfl

theorem okChar_esc (s : List Char) (h : ∀ c ∈ s, okChar c = true) :
    escapeJsonStr s = s := by
  apply escapeJsonStr_id
  intro c hc
  obtain ⟨h1, h2, h3, _, _⟩ := okChar_spec c (h c hc)
  exact ⟨h1, h2, h3⟩

theorem mkDoc_eq_dumps (k v : String)
    (hk : ∀ c ∈ k.data, okCharNB c = true) (hv : ∀ c ∈ v.data, okChar c = true) :
    mkDoc k v = jsonDumpsStr (Json.obj [(k, Json.str v)]) := by
  have hdk : escapeJsonStr k.data = k.data :=
    okChar_esc _ (fun c hc => (okCharNB_spec c (hk c hc)).1)
  have hdv : escapeJsonStr v.data = v.data := okChar_esc _ hv
  have : (mkDoc k v).data = (jsonDumpsStr (Json.obj [(k, Json.str v)])).data := by
    rw [mkDoc_data]
    show mkDocL k.data v.data = jsonDumps (Json.obj [(k, Json.str v)])
    simp [jsonDumps, jsonDumpsFields, mkDocL, hdk, hdv]
  rw [← strMk_data (mkDoc k v),
    ← strMk_data (jsonDumpsStr (Json.obj [(k, Json.str v)]))]
  exact congrArg String.mk this

theorem jsonParse_one (k v : String) :
    jsonParse (jsonDumpsStr (Json.obj [(k, Json.str v)]))
      = some (Json.obj [(k, Json.str v)]) := by
  have key := parseValue_objStrs []
    ((jsonDumps (Json.obj [(k, Json.str v)])).length + 2) k v []
  simp only [List.map_cons, List.map_nil, List.length_nil, Nat.mul_zero,
    Nat.add_zero, List.append_nil] at key
  rw [show (jsonDumps (Json.obj [(k, Json.str v)])).length + 2 + 6
    = (jsonDumps (Json.obj [(k, Json.str v)])).length + 8 from by ring] at key
  rw [jsonParse]
  have hdata : (jsonDumpsStr (Json.obj [(k, Json.str v)])).data
      = jsonDumps (Json.obj [(k, Json.str v)]) := rfl
  have hlen : (jsonDumpsStr (Json.obj [(k, Json.str v)])).length
      = (jsonDumps (Json.obj [(k, Json.str v)])).length := rfl
  rw [hdata, hlen, key]
  simp [insertAllStr, dictInsert, skipJsonWs, dropWhileL]

theorem jsonParse_mkDoc (k v : String)
    (hk : ∀ c ∈ k.data, okCharNB c = true) (hv : ∀ c ∈ v.data, okChar c = true) :
    jsonParse (mkDoc k v) = some (Json.obj [(k, Json.str v)]) := by
  rw [mkDoc_eq_dumps k v hk hv, jsonParse_one]

theorem matchers_none_mkDocL (k v : List Char)
    (hk : ∀ c ∈ k, okCharNB c = true) (hv : ∀ c ∈ v, okChar c = true) :
    ∀ t, t <:+ mkDocL k v →
      match56 t = none ∧ match57 t = none ∧ match60 t = none ∧ match61 t = none := by
  have hadj : hasAdj (fun c => c = '"' || c = '\x7d') isPyWs (mkDocL k v) = false :=
    hasAdj_mkDocL_false _ k v (by decide) (by decide)
      (fun c hc => okChar_not_ws c (okCharNB_spec c (hk c hc)).1)
      (fun c hc => okChar_not_ws c (hv c hc))
  intro t ht
  refine ⟨?_, ?_, ?_, ?_⟩
  · cases hm : match56 t with
    | none => rfl
    | some r =>
      have := hasAdj_suffix _ _ _ _ ht (match56_adj t r hm)
      rw [hadj] at this
      exact absurd this (by simp)
  · cases hm : match57 t with
    | none => rfl
    | some r =>
      have := hasAdj_suffix _ _ _ _ ht (match57_adj t r hm)
      rw [hadj] at this
      exact absurd this (by simp)
  · cases hm : match60 t with
    | none => rfl
    | some r =>
      have := hasAdj_suffix _ _ _ _ ht (match60_adj t r hm)
      rw [hadj] at this
      exact absurd this (by simp)
  · cases hm : match61 t with
    | none => rfl
    | some r =>
      have := hasAdj_suffix _ _ _ _ ht (match61_adj t r hm)
      rw [hadj] at this
      exact absurd this (by simp)

theorem fix_pre_mkDoc (k v : String)
    (hk : ∀ c ∈ k.data, okCharNB c = true) (hv : ∀ c ∈ v.data, okChar c = true) :
    fix_pre_stage (mkDoc k v) = mkDocL k.data v.data := by
  have hmn := matchers_none_mkDocL k.data v.data hk hv
  unfold fix_pre_stage
  rw [mkDoc_data]
  rw [if_pos (by simp [mkDocL, isPrefixL])]
  unfold sub56 sub57 sub60 sub61
  dsimp only
  rw [globalSubC_id _ _ _ _ (fun t ht => (hmn t ht).1)]
  rw [globalSubC_id _ _ _ _ (fun t ht => (hmn t ht).2.1)]
  rw [globalSubC_id _ _ _ _ (fun t ht => (hmn t ht).2.2.1)]
  rw [globalSubC_id _ _ _ _ (fun t ht => (hmn t ht).2.2.2)]

theorem introMissingClose_mkDoc (k v : String)
    (hk : ∀ c ∈ k.data, okCharNB c = true) (hv : ∀ c ∈ v.data, okChar c = true) :
    introMissingClose (mkDoc k v).data = false := by
  have hadj : hasAdj (fun c => c = 't') isPyWs (mkDocL k.data v.data) = false :=
    hasAdj_mkDocL_false _ _ _ (by decide) (by decide)
      (fun c hc => okChar_not_ws c (okCharNB_spec c (hk c hc)).1)
      (fun c hc => okChar_not_ws c (hv c hc))
  rw [mkDoc_data]
  cases him : introMissingClose (mkDocL k.data v.data) with
  | false => rfl
  | true =>
    have := introMissingClose_adj _ him
    rw [hadj] at this
    exact absurd this (by simp)

theorem fix_json_structure_mkDoc (k v : String)
    (hk : ∀ c ∈ k.data, okCharNB c = true) (hv : ∀ c ∈ v.data, okChar c = true) :
    fix_json_structure (mkDoc k v) = mkDoc k v := by
  rw [fix_json_structure]
  rw [if_neg (by
    intro hcon
    rw [introMissingClose_mkDoc k v hk hv] at hcon
    exact absurd hcon.1 (by simp))]
  rw [fix_pre_mkDoc k v hk hv,
    fix_stage2_mkDocL k.data v.data hk hv]
  have hfold : String.mk (mkDocL k.data v.data) = mkDoc k v :=
    (congrArg String.mk (mkDoc_data k v)).symm.trans (strMk_data _)
  dsimp only
  rw [hfold, jsonParse_mkDoc k v hk hv]

theorem subDollar1Go_id (l : List Char) (h : ∀ c ∈ l, c ≠ '$') :
    ∀ (fuel : Nat) (prev : Option Char), subDollar1Go prev fuel l = l := by
  induction l with
  | nil => intro fuel prev; cases fuel <;> rfl
  | cons c cs ih =>
    intro fuel prev
    cases fuel with
    | zero => rfl
    | succ f =>
      have hc : c ≠ '$' := h c (by simp)
      rw [subDollar1Go.eq_def]
      dsimp only
      rw [if_neg hc, ih (fun d hd => h d (by simp [hd])) f (some c)]

theorem subDollar2_id (l : List Char) (h : ∀ c ∈ l, c ≠ '$') :
    subDollar2 l = l := by
  induction l with
  | nil => rfl
  | cons c cs ih =>
    have hc : c ≠ '$' := h c (by simp)
    rw [subDollar2]
    simp only [hc, reduceIte]
    rw [ih (fun d hd => h d (by simp [hd]))]

theorem subBackslashGo_id (l : List Char) (h : ∀ c ∈ l, c ≠ '\\') :
    ∀ (prev : Option Char), subBackslashGo prev l = l := by
  induction l with
  | nil => intro prev; rfl
  | cons c cs ih =>
    intro prev
    have hc : c ≠ '\\' := h c (by simp)
    rw [subBackslashGo.eq_def]
    dsimp only
    rw [if_neg hc, ih (fun d hd => h d (by simp [hd])) (some c)]

theorem replace_in_string_id (l : List Char)
    (h1 : ∀ c ∈ l, c ≠ '$') (h2 : ∀ c ∈ l, c ≠ '\\') :
    replace_in_string l = l := by
  unfold replace_in_string
  rw [subDollar1, subDollar1Go_id l h1, subDollar2_id l h1, subBackslashGo_id l h2]

theorem sanGo_nil : ∀ f, sanitizeStringsGo f [] = [] := by
  intro f; cases f <;> rfl

theorem sanGo_brace : ∀ f, sanitizeStringsGo f ['\x7d'] = ['\x7d'] := by
  intro f
  cases f with
  | zero => rfl
  | succ f' =>
    rw [sanitizeStringsGo]
    simp only [reduceIte, Char.reduceEq]
    rw [sanGo_nil]

theorem sanGo_A3 (v : List Char) (hvq : ∀ c ∈ v, c ≠ '"')
    (hvd : ∀ c ∈ v, c ≠ '$') (hvb : ∀ c ∈ v, c ≠ '\\') :
    ∀ f, sanitizeStringsGo f ('"' :: (v ++ ['"', '\x7d'])) = '"' :: (v ++ ['"', '\x7d']) := by
  intro f
  cases f with
  | zero => rfl
  | succ f' =>
    rw [sanitizeStringsGo]
    simp only [reduceIte]
    rw [show v ++ (['"', '\x7d'] : List Char) = v ++ '"' :: ['\x7d'] from rfl]
    rw [spanL_stop _ v '"' ['\x7d'] (fun c hc => by simp [hvq c hc]) (by decide)]
    simp only [replace_in_string_id v hvd hvb, sanGo_brace]

theorem sanGo_mkDocL (k v : List Char)
    (hkq : ∀ c ∈ k, c ≠ '"') (hkd : ∀ c ∈ k, c ≠ '$') (hkb : ∀ c ∈ k, c ≠ '\\')
    (hvq : ∀ c ∈ v, c ≠ '"') (hvd : ∀ c ∈ v, c ≠ '$') (hvb : ∀ c ∈ v, c ≠ '\\') :
    ∀ f, sanitizeStringsGo f (mkDocL k v) = mkDocL k v := by
  have hA3 := sanGo_A3 v hvq hvd hvb
  have hsp : ∀ f, sanitizeStringsGo f (' ' :: '"' :: (v ++ ['"', '\x7d']))
      = ' ' :: '"' :: (v ++ ['"', '\x7d']) := by
    intro f
    cases f with
    | zero => rfl
    | succ f' =>
      rw [sanitizeStringsGo]
      simp only [Char.reduceEq, reduceIte]
      rw [hA3]
  have hco : ∀ f, sanitizeStringsGo f (':' :: ' ' :: '"' :: (v ++ ['"', '\x7d']))
      = ':' :: ' ' :: '"' :: (v ++ ['"', '\x7d']) := by
    intro f
    cases f with
    | zero => rfl
    | succ f' =>
      rw [sanitizeStringsGo]
      simp only [Char.reduceEq, reduceIte]
      rw [hsp]
  have hA1 : ∀ f, sanitizeStringsGo f ('"' :: (k ++ '"' :: ':' :: ' ' :: '"' :: (v ++ ['"', '\x7d'])))
      = '"' :: (k ++ '"' :: ':' :: ' ' :: '"' :: (v ++ ['"', '\x7d'])) := by
    intro f
    cases f with
    | zero => rfl
    | succ f' =>
      rw [sanitizeStringsGo]
      simp only [reduceIte]
      rw [spanL_stop _ k '"' (':' :: ' ' :: '"' :: (v ++ ['"', '\x7d']))
        (fun c hc => by simp [hkq c hc]) (by decide)]
      simp only [replace_in_string_id k hkd hkb, hco]
  intro f
  cases f with
  | zero => rfl
  | succ f' =>
    show sanitizeStringsGo (f' + 1)
      ('\x7b' :: '"' :: (k ++ '"' :: ':' :: ' ' :: '"' :: (v ++ ['"', '\x7d']))) = _
    rw [sanitizeStringsGo]
    simp only [Char.reduceEq, reduceIte]
    rw [hA1]
    rfl

theorem sanitize_mkDoc (k v : String)
    (hk : ∀ c ∈ k.data, okCharNB c = true) (hv : ∀ c ∈ v.data, okChar c = true) :
    sanitize_json_strings (mkDoc k v) = mkDoc k v := by
  have hkS := fun c hc => okChar_spec c (okCharNB_spec c (hk c hc)).1
  have hvS := fun c hc => okChar_spec c (hv c hc)
  have hgo := sanGo_mkDocL k.data v.data
    (fun c hc => ((hkS c hc).2).1) (fun c hc => ((hkS c hc).2).2.2.1)
    (fun c hc => ((hkS c hc).2).2.1)
    (fun c hc => ((hvS c hc).2).1) (fun c hc => ((hvS c hc).2).2.2.1)
    (fun c hc => ((hvS c hc).2).2.1)
  have hcount : countChar '"' (mkDocL k.data v.data) = 4 :=
    countChar_mkDocL k.data v.data
      (fun c hc => ((hkS c hc).2).1) (fun c hc => ((hvS c hc).2).1)
  unfold sanitize_json_strings
  rw [mkDoc_data, hgo]
  dsimp only
  rw [globalSubF_id _ _ _ (fun t ht => by
    cases hm : matchCommaFix t with
    | none => rfl
    | some pr =>
      have h5 := matchCommaFix_quotes t pr hm
      have hle := countChar_suffix_le '"' t _ ht
      rw [hcount] at hle
      omega)]
  exact (congrArg String.mk (mkDoc_data k v)).symm.trans (strMk_data _)

theorem fenceTryAt_ne (c : Char) (cs : List Char) (hc : c ≠ '`') :
    fenceTryAt (c :: cs) = none := by
  unfold fenceTryAt
  rw [if_neg]
  intro habs
  rw [show "```".data = ['`', '`', '`'] from rfl] at habs
  simp [isPrefixL] at habs
  exact hc habs.1.symm

theorem fenceSearch_none (l : List Char) (h : ∀ c ∈ l, c ≠ '`') :
    fenceSearch l = none := by
  induction l with
  | nil => rfl
  | cons c cs ih =>
    rw [fenceSearch, fenceTryAt_ne c cs (h c (by simp))]
    exact ih (fun d hd => h d (by simp [hd]))

theorem braceSpanTake_seg (seg : List Char) (rest : List Char)
    (h : ∀ c ∈ seg, c ≠ '\x7d') :
    braceSpanTake (seg ++ '\x7d' :: rest) = some (seg ++ ['\x7d']) := by
  induction seg with
  | nil => rfl
  | cons c cs ih =>
    have hc : c ≠ '\x7d' := h c (by simp)
    show braceSpanTake (c :: (cs ++ '\x7d' :: rest)) = _
    rw [braceSpanTake]
    rw [if_neg hc, ih (fun d hd => h d (by simp [hd]))]
    simp

theorem braceSpan_mkDocL (k v : List Char)
    (hk : ∀ c ∈ k, okCharNB c = true) (hv : ∀ c ∈ v, okCharNB c = true) :
    braceSpan (mkDocL k v) = some (mkDocL k v) := by
  have hseg : ∀ c ∈ ('"' :: (k ++ '"' :: ':' :: ' ' :: '"' :: (v ++ ['"']))), c ≠ '\x7d' := by
    intro c hc he
    subst he
    simp at hc
    rcases hc with h1 | h1
    · exact (okCharNB_spec _ (hk _ h1)).2.2 rfl
    · exact (okCharNB_spec _ (hv _ h1)).2.2 rfl
  show braceSpan ('\x7b' :: ('"' :: (k ++ '"' :: ':' :: ' ' :: '"' :: (v ++ ['"', '\x7d'])))) = _
  rw [braceSpan]
  rw [if_pos rfl]
  rw [show ('"' :: (k ++ '"' :: ':' :: ' ' :: '"' :: (v ++ ['"', '\x7d'])))
    = ('"' :: (k ++ '"' :: ':' :: ' ' :: '"' :: (v ++ ['"']))) ++ '\x7d' :: [] from by simp]
  rw [braceSpanTake_seg _ _ hseg]
  show some ('\x7b' :: (('"' :: (k ++ '"' :: ':' :: ' ' :: '"' :: (v ++ ['"']))) ++ ['\x7d'])) = _
  congr 1
  simp [mkDocL]

theorem pyStripL_mkDocL (k v : List Char) :
    pyStripL (mkDocL k v) = mkDocL k v := by
  unfold pyStripL
  have h1 : mkDocL k v
      = ('\x7b' :: '"' :: (k ++ '"' :: ':' :: ' ' :: '"' :: (v ++ ['"']))) ++ ['\x7d'] := by
    simp [mkDocL]
  rw [h1, List.reverse_append,
    show (['\x7d'] : List Char).reverse = ['\x7d'] from rfl,
    List.singleton_append]
  rw [show ∀ X : List Char, dropWhileL isPyWs ('\x7d' :: X) = '\x7d' :: X
    from fun X => by simp [dropWhileL, isPyWs]]
  rw [List.reverse_cons, List.reverse_reverse]
  rw [show (('\x7b' :: '"' :: (k ++ '"' :: ':' :: ' ' :: '"' :: (v ++ ['"']))) ++ ['\x7d'])
    = '\x7b' :: ('"' :: (k ++ '"' :: ':' :: ' ' :: '"' :: (v ++ ['"'])) ++ ['\x7d'])
    from by simp]
  rw [show ∀ X : List Char, dropWhileL isPyWs ('\x7b' :: X) = '\x7b' :: X
    from fun X => by simp [dropWhileL, isPyWs]]

theorem clean_mkDoc (k v : String)
    (hk : ∀ c ∈ k.data, okCharNB c = true) (hv : ∀ c ∈ v.data, okCharNB c = true) :
    clean_gemini_response (mkDoc k v) = mkDoc k v := by
  have hvo : ∀ c ∈ v.data, okChar c = true :=
    fun c hc => (okCharNB_spec c (hv c hc)).1
  have hfold : String.mk (mkDocL k.data v.data) = mkDoc k v :=
    (congrArg String.mk (mkDoc_data k v)).symm.trans (strMk_data _)
  have hnb : ∀ c ∈ (mkDoc k v).data, c ≠ '`' := by
    rw [mkDoc_data]
    intro c hc he
    subst he
    simp [mkDocL] at hc
    rcases hc with h1 | h1
    · exact (okChar_spec _ (okCharNB_spec _ (hk _ h1)).1).2.2.2.2 rfl
    · exact (okChar_spec _ (okCharNB_spec _ (hv _ h1)).1).2.2.2.2 rfl
  rw [clean_gemini_response]
  rw [fenceSearch_none _ hnb]
  rw [show braceSpan (mkDoc k v).data = some (mkDocL k.data v.data) from by
    rw [mkDoc_data]; exact braceSpan_mkDocL k.data v.data hk hv]
  show fix_json_structure (pyStrip (String.mk (mkDocL k.data v.data))) = mkDoc k v
  rw [show pyStrip (String.mk (mkDocL k.data v.data))
      = String.mk (pyStripL (mkDocL k.data v.data)) from rfl]
  rw [pyStripL_mkDocL, hfold]
  exact fix_json_structure_mkDoc k v hk hvo

/-- C3 (counterexample): on the already well-formed document
`{"a": {"b": "c"}, "d": "e"}` the extraction stage's lazy regex
truncates at the first closing brace, so repair returns the parse of a
truncated document, not `parse(t)`. -/
theorem C3_counterexample :
    jsonParse "\x7b\"a\": \x7b\"b\": \"c\"\x7d, \"d\": \"e\"\x7d"
        = some (Json.obj [("a", Json.obj [("b", Json.str "c")]), ("d", Json.str "e")])
      ∧ jsonParse (clean_gemini_response "\x7b\"a\": \x7b\"b\": \"c\"\x7d, \"d\": \"e\"\x7d")
        = some (Json.obj [("a", Json.obj [("b", Json.str "c")])])
      ∧ Json.obj [("a", Json.obj [("b", Json.str "c")]), ("d", Json.str "e")]
        ≠ Json.obj [("a", Json.obj [("b", Json.str "c")])] := by
  refine ⟨rfl, rfl, ?_⟩
  simp

/-- C3 (amended): repair is the identity on well-formed one-field
documents over the brace-free safe alphabet, and such documents parse to
the expected object, so `parse(repair(t)) = parse(t)` there; in general
the extraction stage's lazy regex truncates a valid document at its
first closing brace (see the counterexample). -/
theorem C3_amended (k v : String)
    (hk : ∀ c ∈ k.data, okCharNB c = true) (hv : ∀ c ∈ v.data, okCharNB c = true) :
    clean_gemini_response (mkDoc k v) = mkDoc k v
      ∧ jsonParse (mkDoc k v) = some (Json.obj [(k, Json.str v)]) :=
  ⟨clean_mkDoc k v hk hv,
    jsonParse_mkDoc k v hk (fun c hc => (okCharNB_spec c (hv c hc)).1)⟩

/-- C3 (amended, witness): the concrete document `{"a": "b"}`. -/
theorem C3_amended_witness :
    clean_gemini_response (mkDoc "a" "b") = mkDoc "a" "b"
      ∧ jsonParse (mkDoc "a" "b") = some (Json.obj [("a", Json.str "b")]) :=
  C3_amended "a" "b" (by decide) (by decide)

/-- C4 (counterexample): for the repair input `x}y` (which reaches
`fix_json_structure` unchanged), the delimiter-balancing stage produces
`{x}y}` — its trailing-brace step appends an unmatched closing brace, so
the counts outside string literals are 1 and 2, not equal. -/
theorem C4_counterexample :
    fenceSearch "x\x7dy".data = none
      ∧ braceSpan "x\x7dy".data = none
      ∧ pyStrip (String.mk (stripFenceMarkers "x\x7dy".data)) = "x\x7dy"
      ∧ fix_stage2 (fix_pre_stage "x\x7dy") = "\x7bx\x7dy\x7d".data
      ∧ countBracesOutside "\x7bx\x7dy\x7d".data = (1, 2)
      ∧ (countBracesOutside "\x7bx\x7dy\x7d".data).1
        ≠ (countBracesOutside "\x7bx\x7dy\x7d".data).2 := by
  exact ⟨rfl, rfl, rfl, rfl, rfl, by decide⟩

/-- C5 (counterexample): the reserved-character-escaping stage rewrites
a dollar sigil inside a correctly quoted string literal, so such
characters do not round-trip unchanged. -/
theorem C5_counterexample :
    sanitize_json_strings "\x7b\"a\": \"$B\"\x7d" = "\x7b\"a\": \"\\$B\"\x7d"
      ∧ sanitize_json_strings "\x7b\"a\": \"$B\"\x7d" ≠ "\x7b\"a\": \"$B\"\x7d" := by
  exact ⟨rfl, by decide⟩

/-- C5 (amended): in-string characters over the safe alphabet (braces
allowed, dollars and backslashes excluded) round-trip unchanged through
both the delimiter-balancing stage (`fix_json_structure`) and the
escaping stage (`sanitize_json_strings`); the counterexample shows the
escaping stage rewrites in-string dollar sigils. -/
theorem C5_amended (k v : String)
    (hk : ∀ c ∈ k.data, okCharNB c = true) (hv : ∀ c ∈ v.data, okChar c = true) :
    fix_json_structure (mkDoc k v) = mkDoc k v
      ∧ sanitize_json_strings (mkDoc k v) = mkDoc k v :=
  ⟨fix_json_structure_mkDoc k v hk hv, sanitize_mkDoc k v hk hv⟩

/-- C5 (amended, witness): the concrete document `{"a": "b{c}"}`, with
literal braces inside the string value. -/
theorem C5_amended_witness :
    fix_json_structure (mkDoc "a" "b\x7bc\x7d") = mkDoc "a" "b\x7bc\x7d"
      ∧ sanitize_json_strings (mkDoc "a" "b\x7bc\x7d") = mkDoc "a" "b\x7bc\x7d" :=
  C5_amended "a" "b\x7bc\x7d" (by decide) (by decide)

/-- C6 (counterexample): the lenient defaulting block run with an empty
primary keyword fills `seo.slug` with the empty string, so not every
`seo.*` field is non-empty. -/
theorem C6_counterexample :
    ensure_article_fields "" c6doc = some (c6result "")
      ∧ jPath (c6result "") ["seo", "slug"] = some (Json.str "") := by
  exact ⟨rfl, rfl⟩

/-- C7 (counterexample): the repair-then-validate pipeline on the
end-to-end scenario input returns the empty document, not a validated
document with the expected fields — strict validation rejects the
repaired document because it has no `seo` object (and its empty
`sections` list would also fail the truthiness test). -/
theorem C7_counterexample :
    Gemini.validate_article_json (clean_gemini_response c7raw) = Except.ok (Json.obj [])
      ∧ jPath (Json.obj []) ["title"] = none := by
  exact ⟨rfl, rfl⟩

/-- C7 (amended): the repair stage alone reconstructs exactly the
expected document — title `Bitcoin Rally`, empty `sections`, conclusion
`Stay tuned` — it is the subsequent strict validation that rejects it. -/
theorem C7_amended :
    jsonParse (clean_gemini_response c7raw) = some c7doc
      ∧ jPath c7doc ["title"] = some (Json.str "Bitcoin Rally")
      ∧ jPath c7doc ["content", "sections"] = some (Json.arr [])
      ∧ jPath c7doc ["content", "conclusion"] = some (Json.str "Stay tuned") := by
  exact ⟨rfl, rfl, rfl, rfl⟩

/-- A non-empty string has non-empty character data. -/
theorem kw_data_ne (kw : String) (hk : kw ≠ "") : kw.data ≠ [] := by
  intro h
  exact hk (String.ext h)

/-- C6 (amended): the lenient defaulting of the `generate_article` block
on `{title: "X", content: {}}` with a non-empty primary keyword yields
`content.sections = []`, a non-empty Thai templated `content.conclusion`
mentioning the keyword, and non-empty values for all six `seo.*`
fields.  (The validation.py variant instead leaves `conclusion` and
several `seo` fields empty, and returns `None` for already-valid input;
the templated-conclusion behaviour described by the spec lives in
article.py.) -/
theorem C6_amended (kw : String) (hk : kw ≠ "") :
    ensure_article_fields kw c6doc = some (c6result kw)
      ∧ jPath (c6result kw) ["content", "sections"] = some (Json.arr [])
      ∧ (∃ s, jPath (c6result kw) ["content", "conclusion"] = some (Json.str s)
          ∧ s ≠ "" ∧ kw.data <:+: s.data)
      ∧ ∀ k ∈ Gemini.requiredSeo,
          ∃ s, jPath (c6result kw) ["seo", k] = some (Json.str s) ∧ s ≠ "" := by
  refine ⟨rfl, rfl, ?_, ?_⟩
  · refine ⟨_, rfl, ?_, ?_⟩
    · intro h
      have := congrArg String.data h
      simp [String.data_append] at this
    · refine ⟨"บทความนี้นำเสนอข้อมูลเกี่ยวกับ ".data,
        " ซึ่งเป็นประเด็นสำคัญในตลาดคริปโตที่ควรติดตาม".data, ?_⟩
      simp [String.data_append]
  · intro k hkmem
    fin_cases hkmem
    · refine ⟨_, rfl, ?_⟩
      intro h
      have := congrArg List.length (congrArg String.data h)
      simp [Gemini.dashSpaces, pyLower] at this
      exact kw_data_ne kw hk (List.eq_nil_of_length_eq_zero this)
    · refine ⟨_, rfl, ?_⟩
      intro h
      have := congrArg String.data h
      simp [String.data_append] at this
    · refine ⟨_, rfl, ?_⟩
      intro h
      have := congrArg String.data h
      simp [String.data_append] at this
    · refine ⟨_, rfl, ?_⟩
      intro h
      have := congrArg String.data h
      simp [String.data_append] at this
    · refine ⟨_, rfl, ?_⟩
      intro h
      have := congrArg String.data h
      simp [String.data_append] at this
    · refine ⟨_, rfl, ?_⟩
      intro h
      have := congrArg String.data h
      simp [String.data_append] at this

/-- C6 (witness): the amended defaulting property at the concrete
keyword `Bitcoin`. -/
theorem C6_amended_witness :
    ensure_article_fields "Bitcoin" c6doc = some (c6result "Bitcoin")
      ∧ jPath (c6result "Bitcoin") ["content", "sections"] = some (Json.arr [])
      ∧ (∃ s, jPath (c6result "Bitcoin") ["content", "conclusion"] = some (Json.str s)
          ∧ s ≠ "" ∧ "Bitcoin".data <:+: s.data)
      ∧ ∀ k ∈ Gemini.requiredSeo,
          ∃ s, jPath (c6result "Bitcoin") ["seo", k] = some (Json.str s) ∧ s ≠ "" :=
  C6_amended "Bitcoin" (by decide)

/-- C9: `combine_articles` returns the primary article unchanged when it
is falsy or when the supplementary list is empty (both before the deep
copy is taken); mutation-freedom of the primary argument is inherent in
the embedding, since every write in the source targets the
`json.loads(json.dumps(...))` copy. -/
theorem C9_theorem (p : Json) (s : List Json) (m : Int) :
    (jsonTruthy p = false → combine_articles p s m = some p)
      ∧ combine_articles p [] m = some p := by
  constructor
  · intro h
    simp [combine_articles, h]
  · by_cases h : jsonTruthy p <;> simp [combine_articles, h]

/-- C10: `parse_article` truncates an over-long `seo.metaDescription` to
its first 157 characters plus `"..."` (exactly 160 characters), returns
a string of at most 160 characters unchanged, and never returns a
`yoast_metadesc` longer than 160 characters. -/
theorem C10_theorem (t i c md : String) (sf : List (String × Json))
    (hmd : jGet sf "metaDescription" = some (Json.str md)) :
    exceptMetadesc (parse_article (c10art t i c sf) false)
        = some (Json.str
          (if 160 < md.length then String.mk (md.data.take 157) ++ "..." else md))
      ∧ (160 < md.length → (String.mk (md.data.take 157) ++ "...").length = 160)
      ∧ (∀ s, exceptMetadesc (parse_article (c10art t i c sf) false)
          = some (Json.str s) → s.length ≤ 160) := by
  have hne : 160 < md.length → md.isEmpty = false := by
    intro h
    rw [Bool.eq_false_iff]
    intro he
    rw [String.isEmpty_iff] at he
    subst he
    simp [String.length] at h
  have h157 : 160 < md.length → (String.mk (md.data.take 157) ++ "...").length = 160 := by
    intro h
    have ht : (md.data.take 157).length = 157 := by
      simp [List.length_take]
      omega
    have : (String.mk (md.data.take 157) ++ "...").length
        = (md.data.take 157).length + 3 := by
      rw [String.length_append, String.length_mk]
      rfl
    omega
  by_cases hlen : 160 < md.length
  · refine ⟨?_, fun _ => h157 hlen, ?_⟩
    · simp [c10art, parse_article, seoExtract, exceptMetadesc, jGet, jGetD, hmd,
        jsonTruthy, hne hlen, pyLen, hlen, joinParts, pythonStr]
    · intro s hs
      simp [c10art, parse_article, seoExtract, exceptMetadesc, jGet, jGetD, hmd,
        jsonTruthy, hne hlen, pyLen, hlen, joinParts, pythonStr] at hs
      rw [← hs]
      rw [h157 hlen]
  · have heq : exceptMetadesc (parse_article (c10art t i c sf) false)
        = some (Json.str md) := by
      by_cases hemp : md.isEmpty <;>
        simp [c10art, parse_article, seoExtract, exceptMetadesc, jGet, jGetD, hmd,
          jsonTruthy, hemp, pyLen, hlen, joinParts, pythonStr]
    refine ⟨?_, fun h => absurd h hlen, ?_⟩
    · rw [heq]
      simp [hlen]
    · intro s hs
      rw [heq] at hs
      simp only [Option.some.injEq, Json.str.injEq] at hs
      subst hs
      omega

/-- C10 (witness): the truncation property at a concrete 161-character
meta description. -/
theorem C10_witness :
    exceptMetadesc (parse_article (c10art "T" "I" "C"
        [("metaDescription", Json.str (String.mk (List.replicate 161 'x')))]) false)
        = some (Json.str
          (if 160 < (String.mk (List.replicate 161 'x')).length then
            String.mk ((String.mk (List.replicate 161 'x')).data.take 157) ++ "..."
          else String.mk (List.replicate 161 'x')))
      ∧ (160 < (String.mk (List.replicate 161 'x')).length →
          (String.mk ((String.mk (List.replicate 161 'x')).data.take 157) ++ "...").length
            = 160)
      ∧ (∀ s, exceptMetadesc (parse_article (c10art "T" "I" "C"
          [("metaDescription", Json.str (String.mk (List.replicate 161 'x')))]) false)
          = some (Json.str s) → s.length ≤ 160) :=
  C10_theorem "T" "I" "C" (String.mk (List.replicate 161 'x'))
    [("metaDescription", Json.str (String.mk (List.replicate 161 'x')))] rfl

/-- Dropping a prefix never lengthens a list. -/
theorem dropWhileL_length_le (p : Char → Bool) (l : List Char) :
    (dropWhileL p l).length ≤ l.length := by
  induction l with
  | nil => simp [dropWhileL]
  | cons c cs ih =>
    simp only [dropWhileL]
    split
    · exact Nat.le_succ_of_le ih
    · simp

/-- Inside a whitespace run, the collapse recursion agrees with skipping
the rest of the run. -/
theorem collapseRuns_true_eq (cs : List Char) :
    collapseRuns true cs = collapseRuns false (dropWhileL isPyWs cs) := by
  induction cs with
  | nil => rfl
  | cons c cs ih =>
    by_cases h : isPyWs c <;> simp [collapseRuns, dropWhileL, h, ih]

/-- The `re.sub(r'\s+', ' ', ...)` model agrees with the direct
run-collapsing recursion whenever the fuel covers the input. -/
theorem globalSubC_ws_eq (fuel : Nat) :
    ∀ l : List Char, l.length ≤ fuel →
      globalSubC matchWsRun [' '] fuel l = collapseRuns false l := by
  induction fuel with
  | zero =>
    intro l hl
    have : l = [] := List.eq_nil_of_length_eq_zero (Nat.le_zero.mp hl)
    subst this
    rfl
  | succ fuel ih =>
    intro l hl
    match l with
    | [] => rfl
    | c :: cs =>
      by_cases h : isPyWs c
      · have hlt : (dropWhileL isPyWs cs).length < (c :: cs).length :=
          Nat.lt_succ_of_le (dropWhileL_length_le isPyWs cs)
        have hle : (dropWhileL isPyWs cs).length ≤ fuel := by
          have := dropWhileL_length_le isPyWs cs
          simp at hl
          omega
        simp only [globalSubC, matchWsRun, h, if_true, hlt, if_pos]
        rw [ih _ hle, collapseRuns, if_pos h, ← collapseRuns_true_eq]
        rfl
      · have hle : cs.length ≤ fuel := by simp at hl; omega
        simp only [globalSubC, matchWsRun, h, if_false]
        rw [ih _ hle]
        simp [collapseRuns, h]

/-- C8: the source normalizer equals the spec's description — collapse
whitespace runs to single spaces, strip, and drop code points below 32
except newline and tab — for every input including the empty string;
totality is by construction. -/
theorem C8_theorem (s : String) : clean_source_content s = spec_normalize s := by
  by_cases h : s = ""
  · subst h
    rfl
  · simp only [clean_source_content, h, if_false, spec_normalize]
    rw [globalSubC_ws_eq (s.length + 1) s.data (Nat.le_succ s.data.length)]

/-- Count of a character distributes over cons. -/

theorem countChar_cons (a c : Char) (l : List Char) :
    countChar a (c :: l) = countChar a l + (if c = a then 1 else 0) := by
  simp [countChar, List.count_cons]

/-- Removing an empty mark set is the identity. -/
theorem removeMarked_nil_marks (i : Nat) (l : List Char) :
    removeMarked i l [] = l := by
  cases l <;> rfl

/-- When every mark lies beyond the current index, removal keeps the
head character. -/
theorem removeMarked_cons_of_lt (i : Nat) (c : Char) (cs : List Char)
    (marks : List Nat) (h : ∀ m ∈ marks, i < m) :
    removeMarked i (c :: cs) marks = c :: removeMarked (i + 1) cs marks := by
  cases marks with
  | nil => simp [removeMarked_nil_marks]
  | cons m ms =>
    have : i ≠ m := Nat.ne_of_lt (h m (List.mem_cons_self m ms))
    simp [removeMarked, this]

/-- Invariant of the brace-balance scan on quote-free text: marks lie at
or beyond the scan index, removal deletes exactly the marked closing
braces, and the final stack accounts for the difference between opening
and unmarked closing braces. -/
theorem balanceGo_quotefree : ∀ (l : List Char) (prev : Option Char) (stack i : Nat),
    (∀ c ∈ l, c ≠ '"') →
    (∀ m ∈ (balanceGo prev false stack i l).1, i < m + 1)
      ∧ countChar '\x7b' (removeMarked i l (balanceGo prev false stack i l).1)
          = countChar '\x7b' l
      ∧ countChar '\x7d' (removeMarked i l (balanceGo prev false stack i l).1)
          + (balanceGo prev false stack i l).1.length = countChar '\x7d' l
      ∧ (balanceGo prev false stack i l).2 + countChar '\x7d' l
          = stack + countChar '\x7b' l + (balanceGo prev false stack i l).1.length := by
  intro l
  induction l with
  | nil =>
    intro prev stack i _
    simp [balanceGo, removeMarked, countChar]
  | cons c cs ih =>
    intro prev stack i hq
    have hc : c ≠ '"' := hq c (List.mem_cons_self c cs)
    have hqs : ∀ d ∈ cs, d ≠ '"' := fun d hd => hq d (List.mem_cons_of_mem c hd)
    by_cases hb1 : c = '\x7b'
    · subst hb1
      obtain ⟨hm, hc1, hc2, hc3⟩ := ih (some '\x7b') (stack + 1) (i + 1) hqs
      have hgo : balanceGo prev false stack i ('\x7b' :: cs)
          = balanceGo (some '\x7b') false (stack + 1) (i + 1) cs := by
        simp [balanceGo]
      rw [hgo, removeMarked_cons_of_lt i _ cs _ (fun m hmm => by have := hm m hmm; omega)]
      rw [countChar_cons, countChar_cons, countChar_cons, countChar_cons]
      refine ⟨fun m hmm => by have := hm m hmm; omega,
        by simp; omega, by simp; omega, by simp; omega⟩
    · by_cases hb2 : c = '\x7d'
      · subst hb2
        by_cases hst : stack > 0
        · obtain ⟨hm, hc1, hc2, hc3⟩ := ih (some '\x7d') (stack - 1) (i + 1) hqs
          have hgo : balanceGo prev false stack i ('\x7d' :: cs)
              = balanceGo (some '\x7d') false (stack - 1) (i + 1) cs := by
            simp [balanceGo, hst]
          rw [hgo, removeMarked_cons_of_lt i _ cs _ (fun m hmm => by have := hm m hmm; omega)]
          rw [countChar_cons, countChar_cons, countChar_cons, countChar_cons]
          refine ⟨fun m hmm => by have := hm m hmm; omega,
            by simp; omega, by simp; omega, by simp; omega⟩
        · have hst0 : stack = 0 := Nat.eq_zero_of_not_pos hst
          subst hst0
          obtain ⟨hm, hc1, hc2, hc3⟩ := ih (some '\x7d') 0 (i + 1) hqs
          have hgo : balanceGo prev false 0 i ('\x7d' :: cs)
              = (i :: (balanceGo (some '\x7d') false 0 (i + 1) cs).1,
                 (balanceGo (some '\x7d') false 0 (i + 1) cs).2) := by
            cases hrec : balanceGo (some '\x7d') false 0 (i + 1) cs with
            | mk ms st => simp [balanceGo, hrec]
          rw [hgo]
          have hrm : removeMarked i ('\x7d' :: cs)
              (i :: (balanceGo (some '\x7d') false 0 (i + 1) cs).1)
              = removeMarked (i + 1) cs (balanceGo (some '\x7d') false 0 (i + 1) cs).1 := by
            simp [removeMarked]
          rw [hrm, countChar_cons, countChar_cons]
          refine ⟨?_, by simp; omega, by simp; omega, by simp; omega⟩
          intro m hmm
          simp at hmm
          rcases hmm with h | h
          · omega
          · have := hm m h; omega
      · obtain ⟨hm, hc1, hc2, hc3⟩ := ih (some c) stack (i + 1) hqs
        have hgo : balanceGo prev false stack i (c :: cs)
            = balanceGo (some c) false stack (i + 1) cs := by
          simp [balanceGo, hc, hb1, hb2]
        rw [hgo, removeMarked_cons_of_lt i _ cs _ (fun m hmm => by have := hm m hmm; omega)]
        rw [countChar_cons, countChar_cons, countChar_cons, countChar_cons]
        refine ⟨fun m hmm => by have := hm m hmm; omega, ?_, ?_, ?_⟩
        · simp [hb1]; omega
        · simp [hb2]; omega
        · simp [hb1, hb2]; omega

/-- Count of a character distributes over append. -/
theorem countChar_append (a : Char) (l m : List Char) :
    countChar a (l ++ m) = countChar a l + countChar a m := by
  simp [countChar, List.count_append]

/-- C4 (amended): after the stack-scan balancing substep (removal of
unmatched closers and appending of the open-brace deficit, lines 63–94),
the brace counts of any quote-free text are equal; the full stage's
trailing-brace step (lines 96–98) breaks this, as the counterexample
shows. -/
theorem C4_amended (l : List Char) (h : ∀ c ∈ l, c ≠ '"') :
    countChar '\x7b' (balanceCore l) = countChar '\x7d' (balanceCore l) := by
  obtain ⟨_, hc1, hc2, hc3⟩ := balanceGo_quotefree l none 0 0 h
  have hcore : balanceCore l
      = removeMarked 0 l (balanceGo none false 0 0 l).1
        ++ List.replicate (balanceGo none false 0 0 l).2 '\x7d' := by
    cases hrec : balanceGo none false 0 0 l with
    | mk ms st => simp [balanceCore, hrec]
  rw [hcore, countChar_append, countChar_append]
  have hrepl1 : countChar '\x7b' (List.replicate (balanceGo none false 0 0 l).2 '\x7d') = 0 := by
    simp [countChar, List.count_replicate]
  have hrepl2 : countChar '\x7d' (List.replicate (balanceGo none false 0 0 l).2 '\x7d')
      = (balanceGo none false 0 0 l).2 := by
    simp [countChar, List.count_replicate]
  omega

/-- C4 (witness): the balanced substep at the concrete quote-free input
`x}y{`. -/
theorem C4_amended_witness :
    countChar '\x7b' (balanceCore "x\x7dy\x7b".data)
      = countChar '\x7d' (balanceCore "x\x7dy\x7b".data) :=
  C4_amended "x\x7dy\x7b".data (by decide)

/-- C9 (witness): the identity cases at concrete inputs. -/
theorem C9_witness :
    combine_articles Json.null [Json.obj [("title", Json.str "S")]] 8 = some Json.null
      ∧ combine_articles (Json.obj [("title", Json.str "P")]) [] 8
        = some (Json.obj [("title", Json.str "P")]) :=
  ⟨(C9_theorem Json.null [Json.obj [("title", Json.str "S")]] 8).1 rfl,
   (C9_theorem (Json.obj [("title", Json.str "P")]) [] 8).2⟩

end RAG2WP
